import Mathlib

/-!
Verification development for the `videos-viewer` repository (`main.go`).

The program is shallowly embedded: Go strings become `List Char`, the pieces of
the Go standard library that `main.go` uses (`strings.Split`, `strings.TrimSpace`,
`strconv.Atoi`, `strconv.ParseFloat`, `filepath.Base`, `filepath.Ext`,
`sort.Slice`'s pdqsort, ...) are translated function by function, filesystem
reads/writes and `time.Now` become explicit inputs, and each HTTP handler
becomes a pure function from (server state, decoded request, environment) to
(new state, response, logging effects).
-/

set_option maxRecDepth 10000

/-- Go strings are modelled as lists of characters (runes). -/
abbrev Str := List Char

/-- Coercion from Lean string literals into the `Str` model. -/
def S (s : String) : Str := s.toList

/-- ASCII lower-casing of one character, as `strings.ToLower` acts on the ASCII
range.  (Unicode special cases of `unicode.ToLower` outside ASCII are not
modelled; every string the program compares against is ASCII.) -/
def lowerC (c : Char) : Char :=
  if 'A' ≤ c ∧ c ≤ 'Z' then Char.ofNat (c.toNat + 32) else c

/-- Model of `strings.ToLower` (ASCII fragment). -/
def strLower (s : Str) : Str := s.map lowerC

/-- Decimal digit test, `'0' <= c && c <= '9'` as in Go's strconv. -/
def isDigit (c : Char) : Bool := '0' ≤ c ∧ c ≤ '9'

/-- Whitespace class of Go's `unicode.IsSpace`, used by `strings.TrimSpace`. -/
def goSpace (c : Char) : Bool :=
  c.toNat ∈ [9, 10, 11, 12, 13, 32, 0x85, 0xA0, 0x1680, 0x2028, 0x2029,
    0x202F, 0x205F, 0x3000] ∨ (0x2000 ≤ c.toNat ∧ c.toNat ≤ 0x200A)

/-- Model of `strings.TrimSpace`: drop leading and trailing whitespace. -/
def trimSpace (s : Str) : Str :=
  ((s.dropWhile goSpace).reverse.dropWhile goSpace).reverse

/-- Boolean string-prefix test (Go `strings.HasPrefix`). -/
def hasPre : Str → Str → Bool
  | [], _ => true
  | _ :: _, [] => false
  | c :: p, d :: s => c = d ∧ hasPre p s

/-- Model of `strings.TrimPrefix`. -/
def trimPre (p s : Str) : Str := if hasPre p s then s.drop p.length else s

/-- Helper for `strings.Split`: locate the leftmost occurrence of the (non-empty)
separator `sep`, returning the text before it and the text after it. -/
def findSep (sep : Str) : Str → Option (Str × Str)
  | [] => none
  | c :: cs =>
    if sep.isPrefixOf (c :: cs) then some ([], (c :: cs).drop sep.length)
    else
      match findSep sep cs with
      | some (l, r) => some (c :: l, r)
      | none => none

/-- Fueled worker for `strings.Split`.  Each recursive step removes at least the
(non-empty) separator from the string, so fuel `s.length + 1` always suffices;
the fuel only makes termination syntactic. -/
def goSplitF (sep : Str) : Nat → Str → List Str
  | 0, s => [s]
  | fuel + 1, s =>
    match findSep sep s with
    | none => [s]
    | some (l, r) => l :: goSplitF sep fuel r

/-- Model of `strings.Split(s, sep)` for a non-empty separator: split around
every non-overlapping occurrence of `sep`, leftmost first. -/
def goSplit (sep s : Str) : List Str := goSplitF sep (s.length + 1) s

/-- Worker for `filepath.Ext`: the input is the path reversed, `acc` the suffix
of the original path already passed over.  Stops at a path separator. -/
def extScan : Str → Str → Str
  | [], _ => []
  | c :: r, acc =>
    if c = '/' then [] else if c = '.' then c :: acc else extScan r (c :: acc)

/-- Model of `filepath.Ext`: the suffix beginning at the final dot in the final
path element (empty if there is no dot). -/
def goExt (p : Str) : Str := extScan p.reverse []

/-- Model of `filepath.Base` (unix separator): last element of the path after
stripping trailing slashes; `"."` for the empty path, `"/"` for all-slashes. -/
def goBase (p : Str) : Str :=
  if p = [] then ['.']
  else
    let q := (p.reverse.dropWhile (fun c => c = '/')).reverse
    let r := (q.reverse.takeWhile (fun c => c ≠ '/')).reverse
    if r = [] then ['/'] else r

/-- Value of an all-decimal-digit string (none if empty or a non-digit occurs),
accumulator style exactly like strconv's digit loop. -/
def digitsValAux : Str → Nat → Option Nat
  | [], acc => some acc
  | c :: r, acc =>
    if isDigit c then digitsValAux r (acc * 10 + (c.toNat - 48)) else none

/-- All-digits value of a non-empty string. -/
def digitsVal : Str → Option Nat
  | [] => none
  | c :: r => digitsValAux (c :: r) 0

/-- Model of the `int` value returned by `strconv.Atoi(s)` with the error
discarded (`num, _ := strconv.Atoi(...)` in `loadVideoFiles`'s comparator):
syntax errors yield 0, out-of-range values are clamped to the `int64` limits
(as `strconv.ParseInt` returns the clamped value together with `ErrRange`). -/
def atoiVal (s : Str) : Int :=
  match s with
  | [] => 0
  | c :: rest =>
    let neg := c = '-'
    let body := if c = '-' ∨ c = '+' then rest else c :: rest
    match digitsVal body with
    | none => 0
    | some m =>
      if neg then (if m > 2 ^ 63 then -(2 ^ 63) else -(m : Int))
      else (if m ≥ 2 ^ 63 then 2 ^ 63 - 1 else (m : Int))

/-- Result of `strconv.ParseFloat`.  Finite values are kept as exact rationals:
Go rounds them to the nearest `float64`, which is irrelevant to every claim
(only acceptance and field routing matter); `nan` and `inf` are the values of
the special spellings `"nan"`, `"inf"`, `"infinity"` that parse without error. -/
inductive GoFloat where
  | nan : GoFloat
  | inf : Bool → GoFloat
  | num : ℚ → GoFloat
deriving DecidableEq, Repr

/-- Model of strconv's `special`: full-string, case-insensitive `inf`/`infinity`
with optional sign, and unsigned `nan`. -/
def specialFloat (s : Str) : Option GoFloat :=
  match s with
  | [] => none
  | c :: rest =>
    let signed := c = '-' ∨ c = '+'
    let neg := c = '-'
    let body := if signed then rest else c :: rest
    if strLower body = S "inf" ∨ strLower body = S "infinity" then some (.inf neg)
    else if ¬ signed ∧ strLower body = S "nan" then some .nan
    else none

/-- Digit value of `c` in base 10 or 16 (strconv's `lower(c)-'a'+10` path). -/
def digitInBase (base : Nat) (c : Char) : Option Nat :=
  if isDigit c then some (c.toNat - 48)
  else if base = 16 ∧ 'a' ≤ lowerC c ∧ lowerC c ≤ 'f' then
    some ((lowerC c).toNat - 97 + 10)
  else none

/-- State after scanning a mantissa in strconv's `readFloat`. -/
structure MantRes where
  mant : Nat
  digCount : Nat
  fracCount : Nat
  sawDot : Bool
  sawUnder : Bool
  rest : Str
deriving Repr

/-- Mantissa scan of `readFloat`: digits in `base`, at most one `'.'`,
underscores passed over (validated globally afterwards); stops at the first
other character, which the caller inspects for the exponent marker. -/
def mantScan (base : Nat) : Str → Nat → Nat → Nat → Bool → Bool → MantRes
  | [], mant, dc, fc, dot, und => ⟨mant, dc, fc, dot, und, []⟩
  | c :: r, mant, dc, fc, dot, und =>
    if c = '_' then mantScan base r mant dc fc dot true
    else if c = '.' then
      (if dot then ⟨mant, dc, fc, dot, und, c :: r⟩
       else mantScan base r mant dc fc true und)
    else
      match digitInBase base c with
      | some d =>
        mantScan base r (mant * base + d) (dc + 1) (fc + (if dot then 1 else 0))
          dot und
      | none => ⟨mant, dc, fc, dot, und, c :: r⟩

/-- Exponent digit loop of `readFloat`: value, number of digits, underscores. -/
def expDigitsAux : Str → Nat → Nat → Bool → Option (Nat × Nat × Bool)
  | [], acc, nd, und => some (acc, nd, und)
  | c :: r, acc, nd, und =>
    if c = '_' then expDigitsAux r acc nd true
    else if isDigit c then expDigitsAux r (acc * 10 + (c.toNat - 48)) (nd + 1) und
    else none

/-- Exponent part after the `e`/`p` marker: optional sign, then at least one
digit, consuming the whole remaining string. -/
def expScan (s : Str) : Option (Bool × Nat × Bool) :=
  let p := match s with
    | '+' :: r => (false, r)
    | '-' :: r => (true, r)
    | r => (false, r)
  match expDigitsAux p.2 0 0 false with
  | some (v, nd, und) => if nd = 0 then none else some (p.1, v, und)
  | none => none

/-- Hex-letter test for `underscoreOk`. -/
def isHexLetter (c : Char) : Bool := 'a' ≤ lowerC c ∧ lowerC c ≤ 'f'

/-- Scanner of strconv's `underscoreOK`: `saw` is `'^'` at the beginning,
`'0'` after a digit (or base marker), `'_'` after an underscore, `'!'` after
anything else; underscores must separate digits. -/
def underscoreScan (hex : Bool) : Str → Char → Bool
  | [], saw => saw ≠ '_'
  | c :: r, saw =>
    if isDigit c ∨ (hex ∧ isHexLetter c) then underscoreScan hex r '0'
    else if c = '_' then (if saw ≠ '0' then false else underscoreScan hex r '_')
    else if saw = '_' then false
    else underscoreScan hex r '!'

/-- Model of strconv's `underscoreOK` over the whole parsed string. -/
def underscoreOk (s : Str) : Bool :=
  let s1 := match s with
    | c :: r => if c = '-' ∨ c = '+' then r else c :: r
    | [] => []
  match s1 with
  | a :: b :: r =>
    if a = '0' ∧ (lowerC b = 'b' ∨ lowerC b = 'o' ∨ lowerC b = 'x') then
      underscoreScan (lowerC b = 'x') r '0'
    else underscoreScan false (a :: b :: r) '^'
  | r => underscoreScan false r '^'

/-- Threshold above which a finite decimal rounds to `±Inf` in `float64`
(`2^1024 - 2^970`, half an ulp above the largest finite `float64`); at or above
it `strconv.ParseFloat` reports `ErrRange`, i.e. a non-nil error. -/
def f64Max : ℚ := 2 ^ 1024 - 2 ^ 970

/-- Finish a finite parse: range error (`ErrRange`, non-nil) iff the magnitude
reaches the overflow threshold, otherwise the signed exact value. -/
def mkNum (neg : Bool) (mag : ℚ) : Option GoFloat :=
  if f64Max ≤ mag then none else some (.num (if neg then -mag else mag))

/-- Model of `err == nil` and the parsed value for
`strconv.ParseFloat(s, 64)`: `none` exactly when the call returns a non-nil
error (syntax error, or overflow to infinity = `ErrRange`). Finite magnitudes
are kept exact instead of rounded; under/overflow of tiny values returns the
tiny exact value where Go returns `0` with a nil error — acceptance agrees. -/
def goParseFloat (s : Str) : Option GoFloat :=
  match specialFloat s with
  | some v => some v
  | none =>
    match s with
    | [] => none
    | c0 :: rest0 =>
      let signed := c0 = '-' ∨ c0 = '+'
      let neg := c0 = '-'
      let body := if signed then rest0 else c0 :: rest0
      let isHex := match body with
        | a :: b :: _ => decide (a = '0' ∧ lowerC b = 'x')
        | _ => false
      if isHex then
        let m := mantScan 16 (body.drop 2) 0 0 0 false false
        if m.digCount = 0 then none
        else
          match m.rest with
          | p :: er =>
            if lowerC p = 'p' then
              match expScan er with
              | some (negE, ev, eund) =>
                if (m.sawUnder ∨ eund) ∧ ¬ underscoreOk s then none
                else
                  let e2 : Int := (if negE then -(ev : Int) else ev) - 4 * m.fracCount
                  mkNum neg ((m.mant : ℚ) * (2 : ℚ) ^ e2)
              | none => none
            else none
          | [] => none
      else
        let m := mantScan 10 body 0 0 0 false false
        if m.digCount = 0 then none
        else
          match m.rest with
          | [] =>
            if m.sawUnder ∧ ¬ underscoreOk s then none
            else mkNum neg ((m.mant : ℚ) * (10 : ℚ) ^ (-(m.fracCount : Int)))
          | e :: er =>
            if lowerC e = 'e' then
              match expScan er with
              | some (negE, ev, eund) =>
                if (m.sawUnder ∨ eund) ∧ ¬ underscoreOk s then none
                else
                  let e10 : Int := (if negE then -(ev : Int) else ev) - m.fracCount
                  mkNum neg ((m.mant : ℚ) * (10 : ℚ) ^ e10)
              | none => none
            else none

/-- One discovered video file, mirroring Go's `VideoFile` struct.  `Current`
(`time.Time`) is modelled as an integer tick count with zero value `0`;
`Progress` (`float64`) as `GoFloat`. -/
structure VideoFile where
  Name : Str
  Path : Str
  Viewed : Bool
  Current : Int
  Progress : GoFloat
deriving DecidableEq, Repr

/-- Zero value of `VideoFile`, what a Go map lookup returns for a missing key. -/
def zeroVideo : VideoFile := ⟨[], [], false, 0, .num 0⟩

/-- Reason a read of the store file can fail; `loadViewedVideos` ignores the
distinction (`if err != nil`), but claims distinguish absence from other
failures. -/
inductive ReadFailure where
  | notExist : ReadFailure
  | permissionDenied : ReadFailure
  | otherError : ReadFailure
deriving DecidableEq, Repr

/-- Content of the store file `video_data.json` at the abstraction level of
`encoding/json`: either bytes that fail to unmarshal into `[]VideoFile`, or a
well-formed record list. -/
inductive JsonDoc where
  | malformed : JsonDoc
  | videoList : List VideoFile → JsonDoc
deriving DecidableEq, Repr

/-- State of the store file on disk: `os.ReadFile` either fails or yields a
document. -/
inductive StoreFile where
  | readFails : ReadFailure → StoreFile
  | holds : JsonDoc → StoreFile
deriving DecidableEq, Repr

/-- Go map assignment `m[k] = v` on an association-list model of
`map[string]VideoFile` (replace if present, else append). -/
def assocSet (m : List (Str × VideoFile)) (k : Str) (v : VideoFile) :
    List (Str × VideoFile) :=
  if m.any (fun p => p.1 = k) then
    m.map (fun p => if p.1 = k then (k, v) else p)
  else m ++ [(k, v)]

/-- Go map read `m[k]` with the zero value for missing keys.  The association
lists built by `assocSet` have pairwise-distinct keys, so first match is the
map entry. -/
def mapGet : List (Str × VideoFile) → Str → VideoFile
  | [], _ => zeroVideo
  | p :: m, k => if p.1 = k then p.2 else mapGet m k

/-- Model of `loadViewedVideos` (main.go): any `os.ReadFile` error yields an
empty map and a nil error; content that fails `json.Unmarshal` is a hard error;
otherwise the records are keyed by `Name`, later records overwriting earlier
ones exactly as repeated Go map assignment does. -/
def loadViewedVideos : StoreFile → Except Unit (List (Str × VideoFile))
  | .readFails _ => .ok []
  | .holds .malformed => .error ()
  | .holds (.videoList vs) =>
    .ok (vs.foldl (fun m v => assocSet m v.Name v) [])

/-- Allow-listed video extensions (`videoExtensions` map in `loadVideoFiles`). -/
def videoExtensions (e : Str) : Bool :=
  e = S ".mp4" ∨ e = S ".avi" ∨ e = S ".mkv" ∨ e = S ".mov" ∨
    e = S ".wmv" ∨ e = S ".flv" ∨ e = S ".webm"

/-- One event delivered to the `filepath.Walk` callback: a path, whether it is
a directory, and whether the walk delivers an error for it (in which case the
callback returns that error and the walk aborts). -/
structure WalkEntry where
  path : Str
  isDir : Bool
  err : Bool
deriving DecidableEq, Repr

/-- Trimmed-down walk entry for an ordinary file. -/
def wfile (p : String) : WalkEntry := ⟨S p, false, false⟩

/-- Extension acceptance test exactly as in the walk callback:
`videoExtensions[strings.ToLower(filepath.Ext(path))]`. -/
def extOk (p : Str) : Bool := videoExtensions (strLower (goExt p))

/-- Entry built in the walk callback for an accepted file: name and path come
from the filesystem, the three state fields from the store map (zero value if
the name is absent there). -/
def mkEntry (m : List (Str × VideoFile)) (p : Str) : VideoFile :=
  let base := goBase p
  ⟨base, p, (mapGet m base).Viewed, (mapGet m base).Current,
    (mapGet m base).Progress⟩

/-- The `filepath.Walk` fold of `loadVideoFiles`: abort on a delivered error,
skip directories, keep accepted files in walk order. -/
def walkFold (m : List (Str × VideoFile)) : List WalkEntry →
    Except Unit (List VideoFile)
  | [] => .ok []
  | e :: r =>
    if e.err then .error ()
    else if e.isDir then walkFold m r
    else if extOk e.path then
      match walkFold m r with
      | .ok l => .ok (mkEntry m e.path :: l)
      | .error u => .error u
    else walkFold m r

/-- Sort key of the comparator in `loadVideoFiles`:
`strconv.Atoi(strings.TrimSpace(strings.Split(name, " - ")[0]))` with the
error ignored. -/
def keyOf (name : Str) : Int :=
  atoiVal (trimSpace ((goSplit (S " - ") name).headD []))

/-- The `less` closure handed to `sort.Slice`. -/
def vidLess (x y : VideoFile) : Bool := decide (keyOf x.Name < keyOf y.Name)

/-- Element swap `data.Swap(i, j)` on the list model; out-of-range indices
leave the list unchanged (Go never swaps out of range). -/
def swapL (l : List α) (i j : Nat) : List α :=
  match l.get? i, l.get? j with
  | some x, some y => (l.set i y).set j x
  | _, _ => l

/-- Comparator read `data.Less(i, j)`: compares the elements currently at
positions `i` and `j`. -/
def lessAt (lt : α → α → Bool) (l : List α) (i j : Nat) : Bool :=
  match l.get? i, l.get? j with
  | some x, some y => lt x y
  | _, _ => false

/-- Inner loop of Go's `insertionSort_func`: bubble the element at index `j`
to the left while `j > a` and it is strictly less than its left neighbour. -/
def bubbleI (lt : α → α → Bool) (a : Nat) : List α → Nat → List α
  | l, 0 => l
  | l, j + 1 =>
    if a < j + 1 ∧ lessAt lt l (j + 1) j then bubbleI lt a (swapL l (j + 1) j) j
    else l

/-- Outer loop of `insertionSort_func`, fueled (`fuel ≥ b - i` suffices). -/
def outerI (lt : α → α → Bool) (a b : Nat) : Nat → List α → Nat → List α
  | 0, l, _ => l
  | fuel + 1, l, i =>
    if i < b then outerI lt a b fuel (bubbleI lt a l i) (i + 1) else l

/-- Go's `insertionSort_func(data, a, b)` on the segment `[a, b)`. -/
def insertionSortI (lt : α → α → Bool) (l : List α) (a b : Nat) : List α :=
  outerI lt a b (b - a) l (a + 1)

/-- Go's `siftDown_func`, fueled by the heap height (`hi` suffices: the root
index strictly increases every iteration). -/
def siftDownI (lt : α → α → Bool) : Nat → List α → Nat → Nat → Nat → List α
  | 0, l, _, _, _ => l
  | fuel + 1, l, root, hi, first =>
    let child := 2 * root + 1
    if child ≥ hi then l
    else
      let child := if child + 1 < hi ∧ lessAt lt l (first + child) (first + child + 1)
        then child + 1 else child
      if ¬ lessAt lt l (first + root) (first + child) then l
      else siftDownI lt fuel (swapL l (first + root) (first + child)) child hi first

/-- First loop of `heapSort_func`: build the heap, `i` from `(hi-1)/2` down to
`0`; `cnt` is `i + 1`. -/
def heapBuild (lt : α → α → Bool) (hi first : Nat) : Nat → List α → List α
  | 0, l => l
  | cnt + 1, l => heapBuild lt hi first cnt (siftDownI lt hi l cnt hi first)

/-- Second loop of `heapSort_func`: pop the maximum, `i` from `hi-1` down to
`0`; `cnt` is `i + 1`. -/
def heapPop (lt : α → α → Bool) (first : Nat) : Nat → List α → List α
  | 0, l => l
  | cnt + 1, l =>
    heapPop lt first cnt (siftDownI lt (cnt + 1) (swapL l first (first + cnt)) 0 cnt first)

/-- Go's `heapSort_func(data, a, b)`. -/
def heapSortI (lt : α → α → Bool) (l : List α) (a b : Nat) : List α :=
  let hi := b - a
  heapPop lt a hi (heapBuild lt hi a ((hi - 1) / 2 + 1) l)

/-- Scan `for i <= j && data.Less(i, a) { i++ }` of `partition_func`. -/
def scanUp (lt : α → α → Bool) (l : List α) (a j : Nat) : Nat → Nat → Nat
  | 0, i => i
  | fuel + 1, i => if i ≤ j ∧ lessAt lt l i a then scanUp lt l a j fuel (i + 1) else i

/-- Scan `for i <= j && !data.Less(j, a) { j-- }` of `partition_func`. -/
def scanDown (lt : α → α → Bool) (l : List α) (a i : Nat) : Nat → Nat → Nat
  | 0, j => j
  | fuel + 1, j => if i ≤ j ∧ ¬ lessAt lt l j a then scanDown lt l a i fuel (j - 1) else j

/-- Main loop of `partition_func` after the first advance/retreat round. -/
def partLoop (lt : α → α → Bool) (a b : Nat) : Nat → List α → Nat → Nat →
    List α × Nat
  | 0, l, _, j => (swapL l j a, j)
  | fuel + 1, l, i, j =>
    let i := scanUp lt l a j b i
    let j := scanDown lt l a i b j
    if i > j then (swapL l j a, j)
    else partLoop lt a b fuel (swapL l i j) (i + 1) (j - 1)

/-- Go's `partition_func(data, a, b, pivot)`: returns the list, the new pivot
position and the `alreadyPartitioned` flag. -/
def partitionGo (lt : α → α → Bool) (l : List α) (a b pivot : Nat) :
    List α × Nat × Bool :=
  let l := swapL l a pivot
  let i := scanUp lt l a (b - 1) b (a + 1)
  let j := scanDown lt l a i b (b - 1)
  if i > j then (swapL l j a, j, true)
  else
    let p := partLoop lt a b b (swapL l i j) (i + 1) (j - 1)
    (p.1, p.2, false)

/-- Scan `for i <= j && !data.Less(a, i) { i++ }` of `partitionEqual_func`. -/
def scanUpEq (lt : α → α → Bool) (l : List α) (a j : Nat) : Nat → Nat → Nat
  | 0, i => i
  | fuel + 1, i => if i ≤ j ∧ ¬ lessAt lt l a i then scanUpEq lt l a j fuel (i + 1) else i

/-- Scan `for i <= j && data.Less(a, j) { j-- }` of `partitionEqual_func`. -/
def scanDownEq (lt : α → α → Bool) (l : List α) (a i : Nat) : Nat → Nat → Nat
  | 0, j => j
  | fuel + 1, j => if i ≤ j ∧ lessAt lt l a j then scanDownEq lt l a i fuel (j - 1) else j

/-- Loop of `partitionEqual_func`. -/
def partEqLoop (lt : α → α → Bool) (a b : Nat) : Nat → List α → Nat → Nat →
    List α × Nat
  | 0, l, i, _ => (l, i)
  | fuel + 1, l, i, j =>
    let i := scanUpEq lt l a j b i
    let j := scanDownEq lt l a i b j
    if i > j then (l, i)
    else partEqLoop lt a b fuel (swapL l i j) (i + 1) (j - 1)

/-- Go's `partitionEqual_func(data, a, b, pivot)`: moves elements equal to the
pivot into `[a, i)` and returns `i`. -/
def partitionEqualGo (lt : α → α → Bool) (l : List α) (a b pivot : Nat) :
    List α × Nat :=
  let l := swapL l a pivot
  partEqLoop lt a b b l (a + 1) (b - 1)

/-- Partial-insertion-sort shift loop to the left (`for j := i-1; j >= 1; j--`);
`cnt` counts remaining iterations, with current `j = cnt`. -/
def shiftLeftLoop (lt : α → α → Bool) : Nat → List α → List α
  | 0, l => l
  | j + 1, l =>
    if ¬ lessAt lt l (j + 1) j then l
    else shiftLeftLoop lt j (swapL l (j + 1) j)

/-- Partial-insertion-sort shift loop to the right (`for j := i+1; j < b; j++`). -/
def shiftRightLoop (lt : α → α → Bool) (b : Nat) : Nat → List α → Nat → List α
  | 0, l, _ => l
  | fuel + 1, l, j =>
    if j < b then
      if ¬ lessAt lt l j (j - 1) then l
      else shiftRightLoop lt b fuel (swapL l j (j - 1)) (j + 1)
    else l

/-- Scan `for i < b && !data.Less(i, i-1) { i++ }` inside
`partialInsertionSort_func`. -/
def sortedScan (lt : α → α → Bool) (l : List α) (b : Nat) : Nat → Nat → Nat
  | 0, i => i
  | fuel + 1, i =>
    if i < b ∧ ¬ lessAt lt l i (i - 1) then sortedScan lt l b fuel (i + 1) else i

/-- Go's `partialInsertionSort_func(data, a, b)`: up to `maxSteps = 5`
attempts; returns the list and whether the segment ended up sorted. -/
def partInsSortSteps (lt : α → α → Bool) (a b : Nat) : Nat → List α → Nat →
    List α × Bool
  | 0, l, _ => (l, false)
  | steps + 1, l, i =>
    let i := sortedScan lt l b b i
    if i = b then (l, true)
    else if b - a < 50 then (l, false)
    else
      let l := swapL l i (i - 1)
      let l := if i - a ≥ 2 then shiftLeftLoop lt (i - 1) l else l
      let l := if b - i ≥ 2 then shiftRightLoop lt b b l (i + 1) else l
      partInsSortSteps lt a b steps l i

/-- Go's `partialInsertionSort_func`. -/
def partInsSort (lt : α → α → Bool) (l : List α) (a b : Nat) : List α × Bool :=
  partInsSortSteps lt a b 5 l (a + 1)

/-- One step of Go's `xorshift` PRNG used by `breakPatterns_func`,
on `uint64` arithmetic. -/
def xorshiftNext (v : Nat) : Nat :=
  let m := 2 ^ 64 - 1
  let v := (v ^^^ (v <<< 13)) &&& m
  let v := (v ^^^ (v >>> 7)) &&& m
  ((v ^^^ (v <<< 17)) &&& m)

/-- Go's `bits.Len(uint(n))`: position of the highest set bit. -/
def bitsLen (n : Nat) : Nat := if n = 0 then 0 else n.log2 + 1

/-- Go's `nextPowerOfTwo(length) = 1 << bits.Len(uint(length))`. -/
def nextPow2 (n : Nat) : Nat := 2 ^ bitsLen n

/-- The three random swaps of `breakPatterns_func`; `k` is the loop counter. -/
def breakSwaps (a idx length modulus : Nat) : Nat → Nat → List α → List α
  | 0, _, l => l
  | k + 1, rnd, l =>
    let rnd := xorshiftNext rnd
    let other := rnd &&& (modulus - 1)
    let other := if other ≥ length then other - length else other
    breakSwaps a idx length modulus k rnd (swapL l (idx - 1 + (3 - (k + 1))) (a + other))

/-- Go's `breakPatterns_func(data, a, b)`: xorshift seeded with the segment
length, three swaps around the middle. -/
def breakPatternsGo (l : List α) (a b : Nat) : List α :=
  let length := b - a
  if length ≥ 8 then
    let modulus := nextPow2 length
    let idx := a + (length / 4) * 2 - 1
    breakSwaps a idx length modulus 3 length l
  else l

/-- Sortedness hints of Go's `choosePivot_func`. -/
inductive SortHint where
  | increasing : SortHint
  | decreasing : SortHint
  | unknown : SortHint
deriving DecidableEq, Repr

/-- Go's `order2_func`: order two indices by the data they point at, counting
swaps. -/
def order2Go (lt : α → α → Bool) (l : List α) (x y sw : Nat) : Nat × Nat × Nat :=
  if lessAt lt l y x then (y, x, sw + 1) else (x, y, sw)

/-- Go's `median_func`: median index of three, counting swaps. -/
def medianGo (lt : α → α → Bool) (l : List α) (x y z sw : Nat) : Nat × Nat :=
  let p := order2Go lt l x y sw
  let q := order2Go lt l p.2.1 z p.2.2
  let r := order2Go lt l p.1 q.1 q.2.2
  (r.2.1, r.2.2)

/-- Go's `medianAdjacent_func`: median of `x-1, x, x+1`. -/
def medianAdjGo (lt : α → α → Bool) (l : List α) (x sw : Nat) : Nat × Nat :=
  medianGo lt l (x - 1) x (x + 1) sw

/-- Go's `choosePivot_func(data, a, b)`: returns pivot index and hint.  Reads
the data but never swaps. -/
def choosePivotGo (lt : α → α → Bool) (l : List α) (a b : Nat) : Nat × SortHint :=
  let len := b - a
  let i := a + (len / 4) * 1
  let j := a + (len / 4) * 2
  let k := a + (len / 4) * 3
  if len ≥ 8 then
    let (i, j, k, sw) :=
      if len ≥ 50 then
        let p := medianAdjGo lt l i 0
        let q := medianAdjGo lt l j p.2
        let r := medianAdjGo lt l k q.2
        (p.1, q.1, r.1, r.2)
      else (i, j, k, 0)
    let m := medianGo lt l i j k sw
    if m.2 = 0 then (m.1, .increasing)
    else if m.2 = 12 then (m.1, .decreasing)
    else (m.1, .unknown)
  else (j, .increasing)

/-- Go's `reverseRange_func(data, a, b)`, fueled. -/
def reverseRangeGo : Nat → List α → Nat → Nat → List α
  | 0, l, _, _ => l
  | fuel + 1, l, i, j => if i < j then reverseRangeGo fuel (swapL l i j) (i + 1) (j - 1) else l

/-- Partition-and-recurse tail of one `pdqsort_func` loop iteration: Go's
`partition_func` call, the balance bookkeeping, the recursive call into the
smaller side and the loop continuation (`a = mid+1` / `b = mid`) into the
larger one.  `rec` is the recursion at the next fuel level. -/
def pdqPart (lt : α → α → Bool)
    (rec : List α → Nat → Nat → Nat → Bool → Bool → List α)
    (l : List α) (a b limit : Nat) (_wb _wp : Bool) (pivot : Nat) : List α :=
  let pr := partitionGo lt l a b pivot
  let mid := pr.2.1
  let wasPartitioned := pr.2.2
  let leftLen := mid - a
  let rightLen := b - mid
  let wasBalanced := decide (min leftLen rightLen ≥ (b - a) / 8)
  if leftLen < rightLen then
    rec (rec pr.1 a mid limit true true) (mid + 1) b limit wasBalanced wasPartitioned
  else
    rec (rec pr.1 (mid + 1) b limit true true) a mid limit wasBalanced wasPartitioned

/-- Middle of one `pdqsort_func` loop iteration, after the pivot is fixed: the
`partialInsertionSort` attempt on a likely-sorted segment, the
`partitionEqual` shortcut (Go's `continue` with `a = mid`), then partitioning. -/
def pdqCheck (lt : α → α → Bool)
    (rec : List α → Nat → Nat → Nat → Bool → Bool → List α)
    (l : List α) (a b limit : Nat) (wb wp : Bool) (pivot : Nat)
    (hint : SortHint) : List α :=
  let p2 := if wb ∧ wp ∧ hint = SortHint.increasing then partInsSort lt l a b
    else (l, false)
  if p2.2 then p2.1
  else
    if a > 0 ∧ ¬ lessAt lt p2.1 (a - 1) pivot then
      let pe := partitionEqualGo lt p2.1 a b pivot
      rec pe.1 pe.2 b limit wb wp
    else pdqPart lt rec p2.1 a b limit wb wp pivot

/-- Pivot choice of one `pdqsort_func` loop iteration, reversing the range on a
`decreasing` hint (with Go's pivot-index mirroring). -/
def pdqPivot (lt : α → α → Bool)
    (rec : List α → Nat → Nat → Nat → Bool → Bool → List α)
    (l : List α) (a b limit : Nat) (wb wp : Bool) : List α :=
  let c := choosePivotGo lt l a b
  if c.2 = SortHint.decreasing then
    pdqCheck lt rec (reverseRangeGo b l a (b - 1)) a b limit wb wp
      ((b - 1) - (c.1 - a)) SortHint.increasing
  else pdqCheck lt rec l a b limit wb wp c.1 c.2

/-- Go's `pdqsort_func(data, a, b, limit)`.  The loop/recursion structure is
kept exactly (the loop `continue`s become tail calls at the next fuel level);
`fuel` only bounds the number of loop iterations and recursive calls (every
claim either stays in the first, fuel-independent branch or is evaluated on
concrete data where the fuel is ample; on fuel exhaustion the current list is
returned).  The `!wasBalanced` prelude runs `breakPatterns` and spends one
`limit` credit, exactly as in Go. -/
def pdqsortF (lt : α → α → Bool) : Nat → List α → Nat → Nat → Nat → Bool →
    Bool → List α
  | 0, l, _, _, _, _, _ => l
  | fuel + 1, l, a, b, limit, wasBalanced, wasPartitioned =>
    if b - a ≤ 12 then insertionSortI lt l a b
    else if limit = 0 then heapSortI lt l a b
    else if ¬ wasBalanced then
      pdqPivot lt (pdqsortF lt fuel) (breakPatternsGo l a b) a b (limit - 1)
        wasBalanced wasPartitioned
    else pdqPivot lt (pdqsortF lt fuel) l a b limit wasBalanced wasPartitioned

/-- Go's `sort.Slice(x, less)`: pdqsort over the whole slice with
`limit = bits.Len(uint(length))`. -/
def sortSlice (lt : α → α → Bool) (l : List α) : List α :=
  pdqsortF lt (l.length * l.length + 64) l 0 l.length (bitsLen l.length) true true

/-- The pre-sort stage of `loadVideoFiles`: load the store map, then walk the
tree collecting accepted files in walk order. -/
def scanFiles (store : StoreFile) (walk : List WalkEntry) :
    Except Unit (List VideoFile) :=
  match loadViewedVideos store with
  | .error u => .error u
  | .ok m => walkFold m walk

/-- Model of `loadVideoFiles(path)` (main.go): store load, recursive walk with
extension filter and store merge, then `sort.Slice` with the numeric-prefix
comparator. -/
def loadVideoFiles (store : StoreFile) (walk : List WalkEntry) :
    Except Unit (List VideoFile) :=
  match scanFiles store walk with
  | .error u => .error u
  | .ok files => .ok (sortSlice vidLess files)

/-- Model of the startup part of `main`: `loadVideoFiles` failure is
`log.Fatalf`, i.e. the process aborts before serving (`Except.error`). -/
def mainInit (store : StoreFile) (walk : List WalkEntry) :
    Except Unit (List VideoFile) :=
  loadVideoFiles store walk

/-- Go's `TemplateData`, the payload handed to the template.  Rendering is a
stateless view; responses carry the data instead of flattened HTML. -/
structure TemplateData where
  ReadmeContent : Str
  Videos : List VideoFile
  CurrentVideo : Str
  CurrentVideoFile : Option VideoFile
  FolderName : Str
deriving DecidableEq, Repr

/-- A parsed URL at the granularity `redirectAfterUnview` uses: everything
before the query string, and the query as key/value pairs (`url.Values` with
possibly repeated keys). -/
structure GoURL where
  base : Str
  query : List (Str × Str)
deriving DecidableEq, Repr

/-- The `Referer` header as `handleUnview` consumes it: absent/empty, a string
`url.Parse` rejects, or a parsed URL. -/
inductive Referer where
  | absent : Referer
  | unparseable : Referer
  | parsed : GoURL → Referer
deriving DecidableEq, Repr

/-- Redirect target of `http.Redirect`: the root path `"/"` or a referer URL
(already query-edited).  `URL.String()` re-encoding is kept structural. -/
inductive RedirTarget where
  | rootPath : RedirTarget
  | page : GoURL → RedirTarget
deriving DecidableEq, Repr

/-- HTTP responses the handlers produce, at status/payload granularity. -/
inductive HttpResponse where
  | htmlPage : TemplateData → HttpResponse
  | redirect303 : RedirTarget → HttpResponse
  | ok200 : HttpResponse
  | badRequest : HttpResponse
  | internalError : HttpResponse
  | notFound : HttpResponse
  | fileBytes : Str → HttpResponse
deriving DecidableEq, Repr

/-- Inbound requests, pre-decoded to what the handlers read from `*http.Request`:
the raw URL path, the `ended` query value (`r.URL.Query().Get("ended")`,
empty string when absent), and the referer. -/
inductive Request where
  | root : Str → Request
  | watch : Str → Str → Request
  | unview : Str → Referer → Request
  | video : Str → Request
  | updateProgress : Str → Request
deriving DecidableEq, Repr

/-- Per-request environment: the current time (`time.Now`), whether the store
write would succeed (`os.WriteFile`), the filesystem tree a re-scan would see,
and the constants `readReadmeFile(path)` and `folderName`. -/
structure Env where
  now : Int
  writeOk : Bool
  walk : List WalkEntry
  readme : Str
  folderName : Str
deriving Repr

/-- Process state shared by the handlers: the in-memory `videoFiles` slice
created in `main`, plus the store file on disk. -/
structure ServerState where
  videoFiles : List VideoFile
  store : StoreFile
deriving DecidableEq, Repr

/-- Result of one handler invocation: new state, response, number of
`log.Printf` error lines emitted, number of `os.WriteFile` attempts. -/
structure StepResult where
  state : ServerState
  response : HttpResponse
  errLogs : Nat
  writeAttempts : Nat
deriving DecidableEq, Repr

/-- Effects of one `saveViewedVideos` call. -/
structure SaveOutcome where
  store : StoreFile
  errLogs : Nat
  writeAttempts : Nat
deriving DecidableEq, Repr

/-- Whether `json.Marshal(videoFiles)` succeeds: it fails (with
`UnsupportedValueError`) exactly when some `Progress` is `NaN` or `±Inf`. -/
def marshalOk (vs : List VideoFile) : Bool :=
  vs.all (fun v => match v.Progress with | .num _ => true | _ => false)

/-- Model of `saveViewedVideos` (main.go): marshal failure is logged and
nothing is written; a write failure is logged and leaves the file as it was;
on success the file now holds the serialized list.  No retry, no error value
returned to the caller. -/
def saveViewedVideos (vs : List VideoFile) (cur : StoreFile) (writeOk : Bool) :
    SaveOutcome :=
  if marshalOk vs then
    if writeOk then ⟨.holds (.videoList vs), 0, 1⟩ else ⟨cur, 1, 1⟩
  else ⟨cur, 1, 0⟩

/-- Update the first list element satisfying `p` (the `for ... break` pattern
of `markVideoAsViewed`, `handleUnview`, `handleUpdateProgress`); `none` when no
element matches. -/
def updFirst (p : α → Bool) (f : α → α) : List α → Option (List α)
  | [] => none
  | x :: xs =>
    if p x then some (f x :: xs) else (updFirst p f xs).map (fun l => x :: l)

/-- Model of `markVideoAsViewed(endedFilename, videoFiles, path)`: set
`Viewed := true`, `Current := now`, `Progress := 0` on the first entry with the
given name and save; with no match nothing happens (no save). -/
def markVideoAsViewed (ended : Str) (vs : List VideoFile) (st : StoreFile)
    (now : Int) (writeOk : Bool) : List VideoFile × SaveOutcome :=
  match updFirst (fun v => decide (v.Name = ended))
      (fun v => ⟨v.Name, v.Path, true, now, .num 0⟩) vs with
  | some vs' => (vs', saveViewedVideos vs' st writeOk)
  | none => (vs, ⟨st, 0, 0⟩)

/-- Model of `handleWatch`: resolve the watched name first (a copy, taken
before any mutation), then if the `ended` query value is non-empty and the
watched name resolved, mark the ended video viewed and persist; finally render
the (possibly mutated) list with the pre-mutation current-video copy. -/
def handleWatch (s : ServerState) (rawPath ended : Str) (env : Env) :
    StepResult :=
  let fileName := trimPre (S "/watch/") rawPath
  let current := s.videoFiles.find? (fun v => decide (v.Name = fileName))
  let m := if ended ≠ [] ∧ current.isSome then
      markVideoAsViewed ended s.videoFiles s.store env.now env.writeOk
    else (s.videoFiles, ⟨s.store, 0, 0⟩)
  ⟨⟨m.1, m.2.store⟩, .htmlPage ⟨[], m.1, fileName, current, env.folderName⟩,
    m.2.errLogs, m.2.writeAttempts⟩

/-- The query edit of `redirectAfterUnview`: `q.Del("ended")` removes every
`ended` pair. -/
def stripEnded (u : GoURL) : GoURL :=
  ⟨u.base, u.query.filter (fun p => decide (p.1 ≠ S "ended"))⟩

/-- Model of `redirectAfterUnview`: see-other redirect to the referer with the
`ended` parameter removed, or to `"/"` when the referer is empty or does not
parse. -/
def redirectAfterUnview : Referer → HttpResponse
  | .parsed u => .redirect303 (.page (stripEnded u))
  | _ => .redirect303 .rootPath

/-- Model of `handleUnview`: clear `Viewed` on the first entry with the given
name, save, redirect; unknown names get not-found with no state change. -/
def handleUnview (s : ServerState) (rawPath : Str) (ref : Referer) (env : Env) :
    StepResult :=
  let fileName := trimPre (S "/unview/") rawPath
  match updFirst (fun v => decide (v.Name = fileName))
      (fun v => ⟨v.Name, v.Path, false, v.Current, v.Progress⟩) s.videoFiles with
  | some vs' =>
    let o := saveViewedVideos vs' s.store env.writeOk
    ⟨⟨vs', o.store⟩, redirectAfterUnview ref, o.errLogs, o.writeAttempts⟩
  | none => ⟨s, .notFound, 0, 0⟩

/-- Model of `handleVideo`: serve the file of the first matching entry, else
not-found; no state change. -/
def handleVideo (s : ServerState) (rawPath : Str) : StepResult :=
  let fileName := trimPre (S "/video/") rawPath
  match s.videoFiles.find? (fun v => decide (v.Name = fileName)) with
  | some v => ⟨s, .fileBytes v.Path, 0, 0⟩
  | none => ⟨s, .notFound, 0, 0⟩

/-- Model of `handleUpdateProgress`: split the path on `"/"`, parse the last
segment as a float (bad-request on error, logged), reload the whole library
from disk (internal-server-error on failure, logged), update `Current` and
`Progress` of the first entry matching the second-to-last segment, save, and
answer 200.  The in-memory list of `main` is not touched.  Any routed path
starts with `"/"`, so `parts` has at least two segments (on shorter inputs Go
would panic; the model reads the segment defensively). -/
def handleUpdateProgress (s : ServerState) (rawPath : Str) (env : Env) :
    StepResult :=
  let parts := goSplit (S "/") rawPath
  match goParseFloat (parts.getLastD []) with
  | none => ⟨s, .badRequest, 1, 0⟩
  | some prog =>
    match loadVideoFiles s.store env.walk with
    | .error _ => ⟨s, .internalError, 1, 0⟩
    | .ok files =>
      let fileName := (parts.get? (parts.length - 2)).getD []
      match updFirst (fun v => decide (v.Name = fileName))
          (fun v => ⟨v.Name, v.Path, v.Viewed, env.now, prog⟩) files with
      | some files' =>
        let o := saveViewedVideos files' s.store env.writeOk
        ⟨⟨s.videoFiles, o.store⟩, .ok200, o.errLogs, o.writeAttempts⟩
      | none => ⟨s, .ok200, 0, 0⟩

/-- Model of `handleRoot`: not-found off the exact root path, else the listing
view; never mutates state. -/
def handleRoot (s : ServerState) (rawPath : Str) (env : Env) : StepResult :=
  if rawPath = S "/" then
    ⟨s, .htmlPage ⟨env.readme, s.videoFiles, [], none, env.folderName⟩, 0, 0⟩
  else ⟨s, .notFound, 0, 0⟩

/-- One request dispatched to its handler. -/
def step (s : ServerState) (req : Request) (env : Env) : StepResult :=
  match req with
  | .root p => handleRoot s p env
  | .watch p e => handleWatch s p e env
  | .unview p r => handleUnview s p r env
  | .video p => handleVideo s p
  | .updateProgress p => handleUpdateProgress s p env

/-- A finite sequence of requests, each with its environment. -/
def run (s : ServerState) : List (Request × Env) → ServerState
  | [] => s
  | (r, e) :: rest => run (step s r e).state rest

/-- Sort key of one entry (the comparator recomputes it on every read; the
computation is pure, so this is the same). -/
def keyVid (v : VideoFile) : Int := keyOf v.Name

/-- Functional rendering of one bubble pass of Go's insertion sort: insert `x`
into the sorted list `l` after every element whose key is `≤ k x` (the bubble
stops at the first left neighbour not strictly greater). -/
def insF (k : α → Int) (x : α) : List α → List α
  | [] => [x]
  | y :: ys => if k x < k y then x :: y :: ys else y :: insF k x ys

/-- Functional rendering of Go's `insertionSort_func` over a whole list. -/
def sortF (k : α → Int) (l : List α) : List α :=
  l.foldl (fun acc x => insF k x acc) []

/-- The `map[string]VideoFile` built by `loadViewedVideos` from a record list. -/
def mapOf (vs : List VideoFile) : List (Str × VideoFile) :=
  vs.foldl (fun m v => assocSet m v.Name v) []

/-- Every entry of `l` carrying name `n` has `Viewed = true`. -/
def allViewedNamed (l : List VideoFile) (n : Str) : Bool :=
  l.all (fun v => if v.Name = n then v.Viewed else true)

/-- Some entry of `l` carries name `n`. -/
def someNamed (l : List VideoFile) (n : Str) : Bool :=
  l.any (fun v => decide (v.Name = n))

/-- The video named `n` is viewed, in the in-memory list and in a well-formed
store file alike. -/
def viewedInv (s : ServerState) (n : Str) : Prop :=
  allViewedNamed s.videoFiles n = true ∧ someNamed s.videoFiles n = true ∧
    ∃ ls, s.store = .holds (.videoList ls) ∧ allViewedNamed ls n = true ∧
      someNamed ls n = true

/-- Whether a request is an unview request whose path names `n`. -/
def unviewNames (r : Request) (n : Str) : Bool :=
  match r with
  | .unview p _ => decide (trimPre (S "/unview/") p = n)
  | _ => false

/-- Whether the walk contains an error-free plain file with an allow-listed
extension whose base name is `n`. -/
def acceptedName (walk : List WalkEntry) (n : Str) : Bool :=
  walk.any (fun e => !e.err && !e.isDir && extOk e.path && decide (goBase e.path = n))

/-- The boolean strict comparator induced by an integer key, the shape of the
`sort.Slice` closure in `loadVideoFiles` (`vidLess` is `klt keyVid`). -/
def klt (k : α → Int) (x y : α) : Bool := decide (k x < k y)

/-- Non-decreasing by key. -/
def SortedK (k : α → Int) (l : List α) : Prop :=
  l.Pairwise (fun u v => k u ≤ k v)

/-- Concrete entry for scanner tests: a fresh file with no stored state. -/
def vf13 (n : String) : VideoFile := ⟨S n, S n, false, 0, .num 0⟩

/-- A 13-file walk whose numeric keys contain ties. -/
def walk13 : List WalkEntry :=
  [wfile "1 - v00.mp4", wfile "0 - v01.mp4", wfile "2 - v02.mp4",
   wfile "0 - v03.mp4", wfile "3 - v04.mp4", wfile "3 - v05.mp4",
   wfile "3 - v06.mp4", wfile "3 - v07.mp4", wfile "1 - v08.mp4",
   wfile "0 - v09.mp4", wfile "3 - v10.mp4", wfile "0 - v11.mp4",
   wfile "3 - v12.mp4"]

/-- The scanner's pre-sort entry list for `walk13` (walk order). -/
def pre13 : List VideoFile :=
  [vf13 "1 - v00.mp4", vf13 "0 - v01.mp4", vf13 "2 - v02.mp4",
   vf13 "0 - v03.mp4", vf13 "3 - v04.mp4", vf13 "3 - v05.mp4",
   vf13 "3 - v06.mp4", vf13 "3 - v07.mp4", vf13 "1 - v08.mp4",
   vf13 "0 - v09.mp4", vf13 "3 - v10.mp4", vf13 "0 - v11.mp4",
   vf13 "3 - v12.mp4"]

/-- The scanner's final list for `walk13`: sorted by key, but the key-0 and
key-1 ties are no longer in walk order (`v09` jumped ahead of `v01`, `v03`;
`v08` ahead of `v00`). -/
def out13 : List VideoFile :=
  [vf13 "0 - v09.mp4", vf13 "0 - v01.mp4", vf13 "0 - v03.mp4",
   vf13 "0 - v11.mp4", vf13 "1 - v08.mp4", vf13 "1 - v00.mp4",
   vf13 "2 - v02.mp4", vf13 "3 - v04.mp4", vf13 "3 - v05.mp4",
   vf13 "3 - v06.mp4", vf13 "3 - v07.mp4", vf13 "3 - v10.mp4",
   vf13 "3 - v12.mp4"]

/-- Replacing the element at `j` (which is `b`) after consing `b` in front is a
permutation of consing the new element `a` instead. -/
theorem cons_set_perm : ∀ (t : List α) (j : Nat) (a b : α),
    t.get? j = some b → (b :: t.set j a).Perm (a :: t) := by
  intro t
  induction t with
  | nil => intro j a b h; simp at h
  | cons c s ih =>
    intro j a b h
    cases j with
    | zero =>
      rw [List.get?_cons_zero] at h
      cases h
      show (c :: a :: s).Perm (a :: c :: s)
      exact List.Perm.swap a c s
    | succ j =>
      rw [List.get?_cons_succ] at h
      show (b :: c :: s.set j a).Perm (a :: c :: s)
      exact (List.Perm.swap c b _).trans
        (((ih j a b h).cons c).trans (List.Perm.swap a c s))

/-- A double `set` realizing an element swap is a permutation. -/
theorem set_set_perm : ∀ (l : List α) (i j : Nat) (x y : α),
    l.get? i = some x → l.get? j = some y → ((l.set i y).set j x).Perm l := by
  intro l
  induction l with
  | nil => intro i j x y hx _; simp at hx
  | cons c s ih =>
    intro i j x y hx hy
    cases i with
    | zero =>
      rw [List.get?_cons_zero] at hx
      cases hx
      cases j with
      | zero =>
        rw [List.get?_cons_zero] at hy
        cases hy
        exact .refl _
      | succ j =>
        rw [List.get?_cons_succ] at hy
        exact cons_set_perm s j c y hy
    | succ i =>
      rw [List.get?_cons_succ] at hx
      cases j with
      | zero =>
        rw [List.get?_cons_zero] at hy
        cases hy
        exact cons_set_perm s i c x hx
      | succ j =>
        rw [List.get?_cons_succ] at hy
        exact (ih i j x y hx hy).cons c

/-- The swap primitive permutes the list. -/
theorem swapL_perm (l : List α) (i j : Nat) : (swapL l i j).Perm l := by
  unfold swapL
  split
  next x y hx hy => exact set_set_perm l i j x y hx hy
  all_goals exact .refl _

/-- The swap primitive preserves length. -/
theorem swapL_length (l : List α) (i j : Nat) : (swapL l i j).length = l.length := by
  unfold swapL
  split <;> simp

/-- The bubble loop of insertion sort permutes the list. -/
theorem bubbleI_perm (lt : α → α → Bool) (a : Nat) :
    ∀ (j : Nat) (l : List α), (bubbleI lt a l j).Perm l := by
  intro j
  induction j with
  | zero => intro l; exact .refl _
  | succ j ih =>
    intro l
    rw [bubbleI]
    split
    · exact (ih _).trans (swapL_perm _ _ _)
    · exact .refl _

/-- The outer loop of insertion sort permutes the list. -/
theorem outerI_perm (lt : α → α → Bool) (a b : Nat) :
    ∀ (fuel : Nat) (l : List α) (i : Nat), (outerI lt a b fuel l i).Perm l := by
  intro fuel
  induction fuel with
  | zero => intro l i; exact .refl _
  | succ fuel ih =>
    intro l i
    rw [outerI]
    split
    · exact (ih _ _).trans (bubbleI_perm lt a i l)
    · exact .refl _

/-- Go's insertion sort permutes the list. -/
theorem insertionSortI_perm (lt : α → α → Bool) (l : List α) (a b : Nat) :
    (insertionSortI lt l a b).Perm l :=
  outerI_perm lt a b (b - a) l (a + 1)

/-- The sift-down loop permutes the list. -/
theorem siftDownI_perm (lt : α → α → Bool) :
    ∀ (fuel : Nat) (l : List α) (root hi first : Nat),
      (siftDownI lt fuel l root hi first).Perm l := by
  intro fuel
  induction fuel with
  | zero => intro l root hi first; exact .refl _
  | succ fuel ih =>
    intro l root hi first
    simp only [siftDownI]
    repeat' split
    all_goals
      first
        | exact .refl _
        | exact (ih _ _ _ _).trans (swapL_perm _ _ _)

/-- The heap-building loop permutes the list. -/
theorem heapBuild_perm (lt : α → α → Bool) (hi first : Nat) :
    ∀ (cnt : Nat) (l : List α), (heapBuild lt hi first cnt l).Perm l := by
  intro cnt
  induction cnt with
  | zero => intro l; exact .refl _
  | succ cnt ih =>
    intro l
    rw [heapBuild]
    exact (ih _).trans (siftDownI_perm lt hi l cnt hi first)

/-- The heap-popping loop permutes the list. -/
theorem heapPop_perm (lt : α → α → Bool) (first : Nat) :
    ∀ (cnt : Nat) (l : List α), (heapPop lt first cnt l).Perm l := by
  intro cnt
  induction cnt with
  | zero => intro l; exact .refl _
  | succ cnt ih =>
    intro l
    rw [heapPop]
    exact (ih _).trans ((siftDownI_perm lt _ _ 0 cnt first).trans (swapL_perm _ _ _))

/-- Go's heap sort permutes the list. -/
theorem heapSortI_perm (lt : α → α → Bool) (l : List α) (a b : Nat) :
    (heapSortI lt l a b).Perm l := by
  unfold heapSortI
  exact (heapPop_perm lt a _ _).trans (heapBuild_perm lt _ a _ l)

/-- The main partition loop permutes the list. -/
theorem partLoop_perm (lt : α → α → Bool) (a b : Nat) :
    ∀ (fuel : Nat) (l : List α) (i j : Nat), (partLoop lt a b fuel l i j).1.Perm l := by
  intro fuel
  induction fuel with
  | zero => intro l i j; exact swapL_perm _ _ _
  | succ fuel ih =>
    intro l i j
    simp only [partLoop]
    split
    · exact swapL_perm _ _ _
    · exact (ih _ _ _).trans (swapL_perm _ _ _)

/-- Go's `partition_func` permutes the list. -/
theorem partitionGo_perm (lt : α → α → Bool) (l : List α) (a b pivot : Nat) :
    (partitionGo lt l a b pivot).1.Perm l := by
  simp only [partitionGo]
  split
  · exact (swapL_perm _ _ _).trans (swapL_perm _ _ _)
  · exact (partLoop_perm lt a b b _ _ _).trans
      ((swapL_perm _ _ _).trans (swapL_perm _ _ _))

/-- The partition-equal loop permutes the list. -/
theorem partEqLoop_perm (lt : α → α → Bool) (a b : Nat) :
    ∀ (fuel : Nat) (l : List α) (i j : Nat), (partEqLoop lt a b fuel l i j).1.Perm l := by
  intro fuel
  induction fuel with
  | zero => intro l i j; exact .refl _
  | succ fuel ih =>
    intro l i j
    simp only [partEqLoop]
    split
    · exact .refl _
    · exact (ih _ _ _).trans (swapL_perm _ _ _)

/-- Go's `partitionEqual_func` permutes the list. -/
theorem partitionEqualGo_perm (lt : α → α → Bool) (l : List α) (a b pivot : Nat) :
    (partitionEqualGo lt l a b pivot).1.Perm l := by
  simp only [partitionEqualGo]
  exact (partEqLoop_perm lt a b b _ _ _).trans (swapL_perm _ _ _)

/-- The left-shift loop of partial insertion sort permutes the list. -/
theorem shiftLeftLoop_perm (lt : α → α → Bool) :
    ∀ (j : Nat) (l : List α), (shiftLeftLoop lt j l).Perm l := by
  intro j
  induction j with
  | zero => intro l; exact .refl _
  | succ j ih =>
    intro l
    rw [shiftLeftLoop]
    split
    · exact .refl _
    · exact (ih _).trans (swapL_perm _ _ _)

/-- The right-shift loop of partial insertion sort permutes the list. -/
theorem shiftRightLoop_perm (lt : α → α → Bool) (b : Nat) :
    ∀ (fuel : Nat) (l : List α) (j : Nat), (shiftRightLoop lt b fuel l j).Perm l := by
  intro fuel
  induction fuel with
  | zero => intro l j; exact .refl _
  | succ fuel ih =>
    intro l j
    rw [shiftRightLoop]
    split
    · split
      · exact .refl _
      · exact (ih _ _).trans (swapL_perm _ _ _)
    · exact .refl _

/-- The step loop of `partialInsertionSort_func` permutes the list. -/
theorem partInsSortSteps_perm (lt : α → α → Bool) (a b : Nat) :
    ∀ (steps : Nat) (l : List α) (i : Nat),
      (partInsSortSteps lt a b steps l i).1.Perm l := by
  intro steps
  induction steps with
  | zero => intro l i; exact .refl _
  | succ steps ih =>
    intro l i
    simp only [partInsSortSteps]
    repeat' split
    all_goals
      repeat'
        first
          | exact List.Perm.refl _
          | refine List.Perm.trans (ih _ _) ?_
          | refine List.Perm.trans (shiftRightLoop_perm lt b b _ _) ?_
          | refine List.Perm.trans (shiftLeftLoop_perm lt _ _) ?_
          | refine List.Perm.trans (swapL_perm _ _ _) ?_

/-- Go's `partialInsertionSort_func` permutes the list. -/
theorem partInsSort_perm (lt : α → α → Bool) (l : List α) (a b : Nat) :
    (partInsSort lt l a b).1.Perm l :=
  partInsSortSteps_perm lt a b 5 l (a + 1)

/-- The three break-pattern swaps permute the list. -/
theorem breakSwaps_perm (a idx length modulus : Nat) :
    ∀ (k rnd : Nat) (l : List α), (breakSwaps a idx length modulus k rnd l).Perm l := by
  intro k
  induction k with
  | zero => intro rnd l; exact .refl _
  | succ k ih =>
    intro rnd l
    rw [breakSwaps]
    exact (ih _ _).trans (swapL_perm _ _ _)

/-- Go's `breakPatterns_func` permutes the list. -/
theorem breakPatternsGo_perm (l : List α) (a b : Nat) :
    (breakPatternsGo l a b).Perm l := by
  unfold breakPatternsGo
  dsimp only
  split
  · exact breakSwaps_perm _ _ _ _ 3 _ l
  · exact .refl _

/-- Go's `reverseRange_func` permutes the list. -/
theorem reverseRangeGo_perm :
    ∀ (fuel : Nat) (l : List α) (i j : Nat), (reverseRangeGo fuel l i j).Perm l := by
  intro fuel
  induction fuel with
  | zero => intro l i j; exact .refl _
  | succ fuel ih =>
    intro l i j
    rw [reverseRangeGo]
    split
    · exact (ih _ _ _).trans (swapL_perm _ _ _)
    · exact .refl _

/-- The partition-and-recurse tail permutes the list. -/
theorem pdqPart_perm (lt : α → α → Bool)
    (rec : List α → Nat → Nat → Nat → Bool → Bool → List α)
    (hrec : ∀ l a b limit wb wp, (rec l a b limit wb wp).Perm l)
    (l : List α) (a b limit : Nat) (wb wp : Bool) (pivot : Nat) :
    (pdqPart lt rec l a b limit wb wp pivot).Perm l := by
  simp only [pdqPart]
  split
  · exact (hrec _ _ _ _ _ _).trans
      ((hrec _ _ _ _ _ _).trans (partitionGo_perm lt l a b pivot))
  · exact (hrec _ _ _ _ _ _).trans
      ((hrec _ _ _ _ _ _).trans (partitionGo_perm lt l a b pivot))

/-- The middle of a loop iteration permutes the list. -/
theorem pdqCheck_perm (lt : α → α → Bool)
    (rec : List α → Nat → Nat → Nat → Bool → Bool → List α)
    (hrec : ∀ l a b limit wb wp, (rec l a b limit wb wp).Perm l)
    (l : List α) (a b limit : Nat) (wb wp : Bool) (pivot : Nat)
    (hint : SortHint) : (pdqCheck lt rec l a b limit wb wp pivot hint).Perm l := by
  simp only [pdqCheck]
  repeat' split
  all_goals try (exfalso; simp_all; done)
  all_goals
    repeat'
      first
        | exact List.Perm.refl _
        | refine List.Perm.trans (hrec _ _ _ _ _ _) ?_
        | refine List.Perm.trans (partitionEqualGo_perm lt _ _ _ _) ?_
        | refine List.Perm.trans (partInsSort_perm lt _ _ _) ?_
        | refine List.Perm.trans (pdqPart_perm lt rec hrec _ _ _ _ _ _ _) ?_

/-- The pivot-choice stage permutes the list. -/
theorem pdqPivot_perm (lt : α → α → Bool)
    (rec : List α → Nat → Nat → Nat → Bool → Bool → List α)
    (hrec : ∀ l a b limit wb wp, (rec l a b limit wb wp).Perm l)
    (l : List α) (a b limit : Nat) (wb wp : Bool) :
    (pdqPivot lt rec l a b limit wb wp).Perm l := by
  simp only [pdqPivot]
  split
  · exact (pdqCheck_perm lt rec hrec _ a b limit wb wp _ _).trans
      (reverseRangeGo_perm b l a (b - 1))
  · exact pdqCheck_perm lt rec hrec l a b limit wb wp _ _

/-- Go's `pdqsort_func` permutes the list, whatever the fuel. -/
theorem pdqsortF_perm (lt : α → α → Bool) :
    ∀ (fuel : Nat) (l : List α) (a b limit : Nat) (wb wp : Bool),
      (pdqsortF lt fuel l a b limit wb wp).Perm l := by
  intro fuel
  induction fuel with
  | zero => intro l a b limit wb wp; exact .refl _
  | succ fuel ih =>
    intro l a b limit wb wp
    simp only [pdqsortF]
    split
    · exact insertionSortI_perm lt l a b
    · split
      · exact heapSortI_perm lt l a b
      · split
        · exact (pdqPivot_perm lt (pdqsortF lt fuel) (fun l a b limit wb wp => ih l a b limit wb wp)
            (breakPatternsGo l a b) a b (limit - 1) wb wp).trans
            (breakPatternsGo_perm l a b)
        · exact pdqPivot_perm lt (pdqsortF lt fuel) (fun l a b limit wb wp => ih l a b limit wb wp)
            l a b limit wb wp

/-- `sort.Slice` permutes the list. -/
theorem sortSlice_perm (lt : α → α → Bool) (l : List α) : (sortSlice lt l).Perm l :=
  pdqsortF_perm lt _ l 0 l.length (bitsLen l.length) true true

/-- The comparator of `loadVideoFiles` is the key comparator of `keyVid`. -/
theorem vidLess_eq_klt : vidLess = klt keyVid := rfl

/-- Element lookup in the middle of an append. -/
theorem get_append_len_add : ∀ (q t : List α) (n : Nat),
    (q ++ t).get? (q.length + n) = t.get? n := by
  intro q
  induction q with
  | nil => intro t n; simp
  | cons c q ih => intro t n; simpa [Nat.succ_add] using ih t n

/-- Element update in the middle of an append. -/
theorem set_append_len_add : ∀ (q t : List α) (n : Nat) (v : α),
    (q ++ t).set (q.length + n) v = q ++ t.set n v := by
  intro q
  induction q with
  | nil => intro t n v; simp
  | cons c q ih => intro t n v; simp [Nat.succ_add, ih t n v]

/-- Inserting below a strictly greater last element commutes with the append. -/
theorem insF_append_of_lt (k : α → Int) (x y : α) (h : k x < k y) :
    ∀ (q : List α), insF k x (q ++ [y]) = insF k x q ++ [y] := by
  intro q
  induction q with
  | nil => simp [insF, h]
  | cons c q ih =>
    by_cases hc : k x < k c
    · simp [insF, hc]
    · simp [insF, hc, ih]

/-- Inserting an element no smaller than everything appends it. -/
theorem insF_of_all_not (k : α → Int) (x : α) :
    ∀ (p : List α), (∀ z ∈ p, ¬ k x < k z) → insF k x p = p ++ [x] := by
  intro p
  induction p with
  | nil => intro _; rfl
  | cons c q ih =>
    intro h
    have hc : ¬ k x < k c := h c (by simp)
    simp only [insF, if_neg hc, List.cons_append, List.cons.injEq, true_and]
    exact ih (fun z hz => h z (by simp [hz]))

/-- Membership in an insertion. -/
theorem mem_insF (k : α → Int) (x : α) :
    ∀ (p : List α) (z : α), z ∈ insF k x p ↔ z = x ∨ z ∈ p := by
  intro p
  induction p with
  | nil => intro z; simp [insF]
  | cons c q ih =>
    intro z
    by_cases hc : k x < k c
    · simp [insF, hc]
    · simp only [insF, if_neg hc, List.mem_cons, ih]
      tauto

/-- Insertion preserves length (plus one). -/
theorem insF_length (k : α → Int) (x : α) :
    ∀ (p : List α), (insF k x p).length = p.length + 1 := by
  intro p
  induction p with
  | nil => rfl
  | cons c q ih =>
    by_cases hc : k x < k c
    · simp [insF, hc]
    · simp [insF, hc, ih]

/-- Insertion preserves sortedness. -/
theorem insF_sorted (k : α → Int) (x : α) :
    ∀ (p : List α), SortedK k p → SortedK k (insF k x p) := by
  intro p
  induction p with
  | nil => intro _; simp [insF, SortedK]
  | cons c q ih =>
    intro hs
    rw [SortedK, List.pairwise_cons] at hs
    by_cases hc : k x < k c
    · rw [insF, if_pos hc]
      rw [SortedK, List.pairwise_cons]
      constructor
      · intro z hz
        rcases List.mem_cons.1 hz with h | h
        · exact le_of_lt (h ▸ hc)
        · exact le_trans (le_of_lt hc) (hs.1 z h)
      · rw [List.pairwise_cons]
        exact hs
    · rw [insF, if_neg hc]
      rw [SortedK, List.pairwise_cons]
      constructor
      · intro z hz
        rcases (mem_insF k x q z).1 hz with h | h
        · exact h ▸ le_of_not_lt hc
        · exact hs.1 z h
      · exact ih hs.2

/-- Lookup just after a prefix. -/
theorem get_append_fst (q : List α) (u : α) (t : List α) :
    (q ++ u :: t).get? q.length = some u := by
  simpa using get_append_len_add q (u :: t) 0

/-- Lookup two places after a prefix. -/
theorem get_append_snd (q : List α) (u w : α) (t : List α) :
    (q ++ u :: w :: t).get? (q.length + 1) = some w := by
  simpa using get_append_len_add q (u :: w :: t) 1

/-- Update just after a prefix. -/
theorem set_append_fst (q : List α) (u : α) (t : List α) (v : α) :
    (q ++ u :: t).set q.length v = q ++ v :: t := by
  simpa using set_append_len_add q (u :: t) 0 v

/-- Update two places after a prefix. -/
theorem set_append_snd (q : List α) (u w : α) (t : List α) (v : α) :
    (q ++ u :: w :: t).set (q.length + 1) v = q ++ u :: v :: t := by
  simpa using set_append_len_add q (u :: w :: t) 1 v

/-- Swapping the two elements just after a prefix. -/
theorem swap_mid (q : List α) (u w : α) (t : List α) :
    swapL (q ++ u :: w :: t) (q.length + 1) q.length = q ++ w :: u :: t := by
  simp only [swapL, get_append_snd, get_append_fst, set_append_snd, set_append_fst]

/-- Comparing the two elements just after a prefix. -/
theorem lessAt_mid (lt : α → α → Bool) (q : List α) (u w : α) (t : List α) :
    lessAt lt (q ++ u :: w :: t) (q.length + 1) q.length = lt w u := by
  simp only [lessAt, get_append_snd, get_append_fst]

/-- One bubble pass of Go's insertion sort, run at the boundary between a
sorted prefix and the next element, performs exactly the functional insertion. -/
theorem bubbleI_insert (k : α → Int) :
    ∀ (p : List α), SortedK k p → ∀ (x : α) (r : List α),
      bubbleI (klt k) 0 (p ++ x :: r) p.length = insF k x p ++ r := by
  intro p
  induction p using List.reverseRecOn with
  | nil => intro _ x r; simp [bubbleI, insF]
  | append_singleton q y ih =>
    intro hs x r
    rw [SortedK, List.pairwise_append] at hs
    obtain ⟨hq, _, hall⟩ := hs
    have hq' : SortedK k q := hq
    have hshape : (q ++ [y]) ++ x :: r = q ++ y :: x :: r := by simp
    have hlen : (q ++ [y]).length = q.length + 1 := by simp
    rw [hshape, hlen, bubbleI]
    by_cases hxy : k x < k y
    · rw [if_pos ⟨Nat.succ_pos _, by
        rw [lessAt_mid]; exact decide_eq_true hxy⟩]
      rw [swap_mid, ih hq' x (y :: r), insF_append_of_lt k x y hxy q]
      simp
    · rw [if_neg (by
        intro hcon
        rw [lessAt_mid] at hcon
        exact hxy (of_decide_eq_true hcon.2))]
      rw [insF_of_all_not k x (q ++ [y]) (by
        intro z hz
        rcases List.mem_append.1 hz with h | h
        · have hzy := hall z h y (by simp)
          intro hlt
          exact hxy (lt_of_lt_of_le hlt hzy)
        · rcases List.mem_singleton.1 h with rfl
          exact hxy)]
      simp

/-- The outer loop of Go's insertion sort folds functional insertion over the
unprocessed suffix. -/
theorem outerI_insert (k : α → Int) :
    ∀ (todo done : List α) (fuel : Nat), SortedK k done → todo.length ≤ fuel →
      outerI (klt k) 0 (done.length + todo.length) fuel (done ++ todo)
          done.length
        = todo.foldl (fun acc x => insF k x acc) done := by
  intro todo
  induction todo with
  | nil =>
    intro done fuel _ _
    cases fuel with
    | zero => simp [outerI]
    | succ f => simp [outerI]
  | cons x t ih =>
    intro done fuel hs hf
    cases fuel with
    | zero => exact absurd hf (by simp)
    | succ f =>
      rw [outerI, if_pos (by simp)]
      rw [bubbleI_insert k done hs x t]
      have h2 : done.length + 1 = (insF k x done).length := (insF_length k x done).symm
      have h1 : done.length + (x :: t).length = (insF k x done).length + t.length := by
        rw [← h2]
        simp
        omega
      rw [h1, h2]
      rw [ih (insF k x done) f (insF_sorted k x done hs) (by simpa using Nat.le_of_succ_le_succ (by simpa using hf))]
      rfl

/-- Go's insertion sort over a whole list is the functional insertion sort. -/
theorem insertionSortI_eq_sortF (k : α → Int) (l : List α) :
    insertionSortI (klt k) l 0 l.length = sortF k l := by
  cases l with
  | nil => rfl
  | cons x t =>
    show outerI (klt k) 0 (x :: t).length ((x :: t).length - 0) (x :: t) 1
      = sortF k (x :: t)
    have h := outerI_insert k t [x] (t.length + 1) (by simp [SortedK])
      (Nat.le_succ _)
    have hb : ([x] : List α).length + t.length = (x :: t).length := by
      simp [Nat.add_comm]
    rw [hb] at h
    have hfuel : (x :: t).length - 0 = t.length + 1 := by simp
    rw [hfuel]
    have hl : ([x] : List α) ++ t = x :: t := rfl
    rw [hl] at h
    have hone : ([x] : List α).length = 1 := rfl
    rw [hone] at h
    rw [h]
    rfl

/-- Folding insertions keeps sortedness. -/
theorem foldl_insF_sorted (k : α → Int) :
    ∀ (l acc : List α), SortedK k acc →
      SortedK k (l.foldl (fun acc x => insF k x acc) acc) := by
  intro l
  induction l with
  | nil => intro acc h; exact h
  | cons x t ih => intro acc h; exact ih (insF k x acc) (insF_sorted k x acc h)

/-- The functional insertion sort sorts. -/
theorem sortF_sorted (k : α → Int) (l : List α) : SortedK k (sortF k l) :=
  foldl_insF_sorted k l [] (by simp [SortedK])

/-- Inserting into a sorted list places the new element after every element
with the same filter key, so filtering by one key value appends it. -/
theorem insF_filter (k : α → Int) (c : Int) (x : α) :
    ∀ (p : List α), SortedK k p →
      (insF k x p).filter (fun z => decide (k z = c))
        = if k x = c then p.filter (fun z => decide (k z = c)) ++ [x]
          else p.filter (fun z => decide (k z = c)) := by
  intro p
  induction p with
  | nil => intro _; by_cases h : k x = c <;> simp [insF, h]
  | cons y ys ih =>
    intro hs
    rw [SortedK, List.pairwise_cons] at hs
    by_cases hxy : k x < k y
    · rw [insF, if_pos hxy]
      by_cases hc : k x = c
      · have hnil : (y :: ys).filter (fun z => decide (k z = c)) = [] := by
          rw [List.filter_eq_nil]
          intro z hz
          simp only [decide_eq_true_eq]
          rcases List.mem_cons.1 hz with h | h
          · intro h2; rw [h] at h2; omega
          · have := hs.1 z h
            intro h2
            omega
        rw [if_pos hc, hnil]
        simp [List.filter_cons, hc, hnil]
      · rw [if_neg hc]
        simp [List.filter_cons, hc]
    · rw [insF, if_neg hxy]
      have hys := ih hs.2
      by_cases hc : k x = c
      · rw [if_pos hc] at hys ⊢
        by_cases hyc : k y = c
        · simp [List.filter_cons, hyc, hys]
        · simp [List.filter_cons, hyc, hys]
      · rw [if_neg hc] at hys ⊢
        by_cases hyc : k y = c
        · simp [List.filter_cons, hyc, hys]
        · simp [List.filter_cons, hyc, hys]

/-- Folding insertions preserves the per-key filtered subsequences. -/
theorem foldl_insF_filter (k : α → Int) (c : Int) :
    ∀ (l acc : List α), SortedK k acc →
      (l.foldl (fun acc x => insF k x acc) acc).filter (fun z => decide (k z = c))
        = acc.filter (fun z => decide (k z = c))
          ++ l.filter (fun z => decide (k z = c)) := by
  intro l
  induction l with
  | nil => intro acc _; simp
  | cons x t ih =>
    intro acc hs
    have step := ih (insF k x acc) (insF_sorted k x acc hs)
    rw [List.foldl_cons, step, insF_filter k c x acc hs]
    by_cases hc : k x = c
    · rw [if_pos hc]
      simp [List.filter_cons, hc]
    · rw [if_neg hc]
      simp [List.filter_cons, hc]

/-- The functional insertion sort is stable: filtering by any key value gives
the original subsequence. -/
theorem sortF_filter (k : α → Int) (c : Int) (l : List α) :
    (sortF k l).filter (fun z => decide (k z = c))
      = l.filter (fun z => decide (k z = c)) := by
  simpa using foldl_insF_filter k c l [] (by simp [SortedK])

/-- On at most 12 elements, `sort.Slice` is exactly Go's insertion sort, hence
the functional insertion sort. -/
theorem sortSlice_small (k : α → Int) (l : List α) (h : l.length ≤ 12) :
    sortSlice (klt k) l = sortF k l := by
  have hfuel : l.length * l.length + 64 = (l.length * l.length + 63) + 1 := rfl
  rw [sortSlice, hfuel, pdqsortF, if_pos (by simpa using h)]
  exact insertionSortI_eq_sortF k l

/-- The scanner keeps exactly the error-free non-directory entries with an
allow-listed extension, in walk order, merged through `mkEntry`. -/
theorem walkFold_ok_eq (m : List (Str × VideoFile)) :
    ∀ (walk : List WalkEntry) (l : List VideoFile), walkFold m walk = .ok l →
      l = (walk.filter (fun e => !e.err && !e.isDir && extOk e.path)).map
        (fun e => mkEntry m e.path) := by
  intro walk
  induction walk with
  | nil =>
    intro l h
    simp only [walkFold] at h
    cases h
    rfl
  | cons e r ih =>
    intro l h
    by_cases herr : e.err = true
    · rw [walkFold, if_pos herr] at h
      cases h
    · by_cases hdir : e.isDir = true
      · rw [walkFold, if_neg herr, if_pos hdir] at h
        simp [List.filter_cons, herr, hdir, ih l h]
      · by_cases hext : extOk e.path = true
        · rw [walkFold, if_neg herr, if_neg hdir, if_pos hext] at h
          cases hrec : walkFold m r with
          | error u => rw [hrec] at h; cases h
          | ok l' =>
            rw [hrec] at h
            cases h
            simp [List.filter_cons, herr, hdir, hext, ih l' hrec]
        · rw [walkFold, if_neg herr, if_neg hdir, if_neg hext] at h
          simp [List.filter_cons, herr, hdir, hext, ih l h]

/-- A `walkFold` that succeeds saw no walk errors. -/
theorem walkFold_ok_no_err (m : List (Str × VideoFile)) :
    ∀ (walk : List WalkEntry) (l : List VideoFile), walkFold m walk = .ok l →
      ∀ e ∈ walk, e.err = false := by
  intro walk
  induction walk with
  | nil => intro l _ e he; cases he
  | cons e0 r ih =>
    intro l h e he
    by_cases herr : e0.err = true
    · rw [walkFold, if_pos herr] at h
      cases h
    · rcases List.mem_cons.1 he with rfl | hmem
      · simpa using herr
      · rw [walkFold, if_neg herr] at h
        by_cases hdir : e0.isDir = true
        · rw [if_pos hdir] at h
          exact ih l h e hmem
        · rw [if_neg hdir] at h
          by_cases hext : extOk e0.path = true
          · rw [if_pos hext] at h
            cases hrec : walkFold m r with
            | error u => rw [hrec] at h; cases h
            | ok l' => exact ih l' hrec e hmem
          · rw [if_neg hext] at h
            exact ih l h e hmem

/-- Rewriting the occurrences of one key leaves reads of other keys alone. -/
theorem mapGet_map_rewrite (kk : Str) (v : VideoFile) (k' : Str) (hk : k' ≠ kk) :
    ∀ (t : List (Str × VideoFile)),
      mapGet (t.map (fun p => if p.1 = kk then (kk, v) else p)) k' = mapGet t k' := by
  intro t
  induction t with
  | nil => rfl
  | cons p s ih =>
    by_cases hp : p.1 = kk
    · simp only [List.map_cons, if_pos hp, mapGet]
      rw [if_neg (Ne.symm hk), if_neg (fun h => hk (hp ▸ h).symm)]
      exact ih
    · simp only [List.map_cons, if_neg hp, mapGet]
      by_cases hp' : p.1 = k'
      · rw [if_pos hp', if_pos hp']
      · rw [if_neg hp', if_neg hp']
        exact ih

/-- Go map update then read. -/
theorem mapGet_assocSet :
    ∀ (m : List (Str × VideoFile)) (kk : Str) (v : VideoFile) (k' : Str),
      mapGet (assocSet m kk v) k' = if k' = kk then v else mapGet m k' := by
  intro m
  induction m with
  | nil =>
    intro kk v k'
    by_cases hk : k' = kk
    · simp [assocSet, mapGet, hk]
    · simp [assocSet, mapGet, hk, Ne.symm hk]
  | cons q t ih =>
    intro kk v k'
    by_cases hq : q.1 = kk
    · have hany : (q :: t).any (fun p => decide (p.1 = kk)) = true := by
        simp [hq]
      rw [assocSet, if_pos hany]
      simp only [List.map_cons, if_pos hq, mapGet]
      by_cases hk : k' = kk
      · rw [if_pos hk.symm, if_pos hk]
      · rw [if_neg (Ne.symm hk), if_neg hk, mapGet_map_rewrite kk v k' hk t,
          if_neg (fun h => hk (h.symm.trans hq))]
    · have hany : (q :: t).any (fun p => decide (p.1 = kk))
          = t.any (fun p => decide (p.1 = kk)) := by
        simp [hq]
      have hstep : assocSet (q :: t) kk v = q :: assocSet t kk v := by
        by_cases ht : t.any (fun p => decide (p.1 = kk)) = true
        · rw [assocSet, if_pos (hany ▸ ht), assocSet, if_pos ht,
            List.map_cons, if_neg hq]
        · rw [assocSet, if_neg (fun h => ht (hany ▸ h)), assocSet, if_neg ht]
          rfl
      rw [hstep]
      simp only [mapGet]
      by_cases hp' : q.1 = k'
      · have hk : ¬ k' = kk := fun h => hq (hp' ▸ h : q.1 = kk)
        rw [if_pos hp', if_neg hk, if_pos hp']
      · rw [if_neg hp', ih kk v k']
        by_cases hk : k' = kk
        · rw [if_pos hk, if_pos hk]
        · rw [if_neg hk, if_neg hk, if_neg hp']

/-- A `loadViewedVideos` map read returns the last record with the given name
(later records overwrite earlier ones), or the zero value. -/
theorem mapGet_mapOf_last :
    ∀ (L : List VideoFile) (n : Str),
      mapGet (mapOf L) n
        = (L.reverse.find? (fun v => decide (v.Name = n))).getD zeroVideo := by
  intro L
  induction L using List.reverseRecOn with
  | nil => intro n; rfl
  | append_singleton L0 v ih =>
    intro n
    have h1 : mapOf (L0 ++ [v]) = assocSet (mapOf L0) v.Name v := by
      simp [mapOf, List.foldl_append]
    rw [h1, mapGet_assocSet, List.reverse_append]
    by_cases hn : n = v.Name
    · rw [if_pos hn]
      simp [List.find?_cons_of_pos, hn]
    · rw [if_neg hn, ih n]
      have hrev : ([v] : List VideoFile).reverse ++ L0.reverse = v :: L0.reverse := by
        simp
      rw [hrev, List.find?_cons_of_neg _ (by simpa using fun h => hn h.symm)]

/-- With pairwise-distinct names, the store map read of a member's name is the
member itself. -/
theorem mapGet_mapOf_nodup :
    ∀ (L : List VideoFile), (L.map (fun v => v.Name)).Nodup →
      ∀ v ∈ L, mapGet (mapOf L) v.Name = v := by
  intro L
  induction L using List.reverseRecOn with
  | nil => intro _ v hv; cases hv
  | append_singleton L0 w ih =>
    intro hnd v hv
    have h1 : mapOf (L0 ++ [w]) = assocSet (mapOf L0) w.Name w := by
      simp [mapOf, List.foldl_append]
    have hnd0 : (L0.map (fun v => v.Name)).Nodup := by
      rw [List.map_append] at hnd
      exact (List.nodup_append.1 hnd).1
    have hdiff : ∀ u ∈ L0, u.Name ≠ w.Name := by
      intro u hu
      rw [List.map_append, List.nodup_append] at hnd
      intro hcon
      exact hnd.2.2 (List.mem_map_of_mem _ hu) (by simp [hcon])
    rw [h1, mapGet_assocSet]
    rcases List.mem_append.1 hv with h | h
    · rw [if_neg (hdiff v h)]
      exact ih hnd0 v h
    · rcases List.mem_singleton.1 h with rfl
      rw [if_pos rfl]

/-- If every record named `n` in the store list is viewed and one exists, the
map read of `n` is a viewed record named `n`. -/
theorem mapGet_mapOf_viewed (L : List VideoFile) (n : Str)
    (hall : allViewedNamed L n = true) (hsome : someNamed L n = true) :
    (mapGet (mapOf L) n).Viewed = true ∧ (mapGet (mapOf L) n).Name = n := by
  rw [mapGet_mapOf_last]
  have hex : ∃ x ∈ L.reverse, (fun v => decide (v.Name = n)) x = true := by
    rw [someNamed, List.any_eq_true] at hsome
    obtain ⟨v, hv, hp⟩ := hsome
    exact ⟨v, List.mem_reverse.2 hv, hp⟩
  have hiss : (L.reverse.find? (fun v => decide (v.Name = n))).isSome = true :=
    List.find?_isSome.2 hex
  cases hfind : L.reverse.find? (fun v => decide (v.Name = n)) with
  | none => rw [hfind] at hiss; cases hiss
  | some w =>
    have hw : w.Name = n := by simpa using List.find?_some hfind
    have hmem : w ∈ L := List.mem_reverse.1 (List.mem_of_find?_eq_some hfind)
    have hv : w.Viewed = true := by
      rw [allViewedNamed, List.all_eq_true] at hall
      have := hall w hmem
      simpa [hw] using this
    exact ⟨hv, hw⟩

/-- No element satisfies the predicate exactly when `updFirst` finds nothing. -/
theorem updFirst_none (p : α → Bool) (f : α → α) :
    ∀ (l : List α), updFirst p f l = none ↔ ∀ x ∈ l, ¬ p x = true := by
  intro l
  induction l with
  | nil => simp [updFirst]
  | cons x xs ih =>
    by_cases hp : p x = true
    · simp [updFirst, hp]
    · simp [updFirst, hp, ih]

/-- A successful `updFirst` is a point update of the matched element. -/
theorem updFirst_some_set (p : α → Bool) (f : α → α) :
    ∀ (l l' : List α), updFirst p f l = some l' →
      ∃ i x, l.get? i = some x ∧ p x = true ∧ l' = l.set i (f x) := by
  intro l
  induction l with
  | nil => intro l' h; cases h
  | cons x xs ih =>
    intro l' h
    by_cases hp : p x = true
    · rw [updFirst, if_pos hp] at h
      cases h
      exact ⟨0, x, rfl, hp, rfl⟩
    · rw [updFirst, if_neg hp] at h
      cases hrec : updFirst p f xs with
      | none => rw [hrec] at h; cases h
      | some l'' =>
        rw [hrec] at h
        cases h
        obtain ⟨i, y, hy, hpy, hset⟩ := ih l'' hrec
        exact ⟨i + 1, y, hy, hpy, by rw [hset]; rfl⟩

/-- `updFirst` preserves any projection the update function preserves on
matched elements. -/
theorem updFirst_map (p : α → Bool) (f : α → α) (g : α → β)
    (hg : ∀ x, p x = true → g (f x) = g x) :
    ∀ (l l' : List α), updFirst p f l = some l' → l'.map g = l.map g := by
  intro l
  induction l with
  | nil => intro l' h; cases h
  | cons x xs ih =>
    intro l' h
    by_cases hp : p x = true
    · rw [updFirst, if_pos hp] at h
      cases h
      simp [hg x hp]
    · rw [updFirst, if_neg hp] at h
      cases hrec : updFirst p f xs with
      | none => rw [hrec] at h; cases h
      | some l'' =>
        rw [hrec] at h
        cases h
        simp [ih l'' hrec]

/-- Elements of a successful `updFirst` result are old elements or the single
updated one. -/
theorem updFirst_mem (p : α → Bool) (f : α → α) :
    ∀ (l l' : List α), updFirst p f l = some l' →
      ∀ y ∈ l', y ∈ l ∨ ∃ x ∈ l, p x = true ∧ y = f x := by
  intro l
  induction l with
  | nil => intro l' h; cases h
  | cons x xs ih =>
    intro l' h y hy
    by_cases hp : p x = true
    · rw [updFirst, if_pos hp] at h
      cases h
      rcases List.mem_cons.1 hy with rfl | hmem
      · exact Or.inr ⟨x, by simp, hp, rfl⟩
      · exact Or.inl (List.mem_cons_of_mem x hmem)
    · rw [updFirst, if_neg hp] at h
      cases hrec : updFirst p f xs with
      | none => rw [hrec] at h; cases h
      | some l'' =>
        rw [hrec] at h
        cases h
        rcases List.mem_cons.1 hy with rfl | hmem
        · exact Or.inl (by simp)
        · rcases ih l'' hrec y hmem with h | ⟨z, hz, hpz, hyz⟩
          · exact Or.inl (List.mem_cons_of_mem x h)
          · exact Or.inr ⟨z, List.mem_cons_of_mem x hz, hpz, hyz⟩

/-- C7: loading the store when the file is absent yields the empty mapping
with no error; an existing file with malformed JSON is a hard error, and
startup (`main`'s `loadVideoFiles` + `log.Fatalf`) aborts before serving for
every walk. -/
theorem C7_store_load_behavior :
    loadViewedVideos (.readFails .notExist) = .ok []
    ∧ loadViewedVideos (.holds .malformed) = .error ()
    ∧ ∀ walk : List WalkEntry, mainInit (.holds .malformed) walk = .error () := by
  exact ⟨rfl, rfl, fun walk => rfl⟩

/-- C10: every read failure of the store file — absence, permission denied, or
anything else — yields the empty mapping and no error. -/
theorem C10_any_read_failure_empty :
    ∀ e : ReadFailure, loadViewedVideos (.readFails e) = .ok [] := by
  intro e
  rfl

/-- C1 counterexample: `bad_name.mp4` does not match the `"<int> - <rest>"`
pattern (it does not split into two parts on `" - "`), yet a walk containing
only that file yields a library with exactly that entry — the scanner never
checks the name. -/
theorem C1_counterexample :
    loadVideoFiles (.readFails .notExist) [wfile "bad_name.mp4"]
      = .ok [⟨S "bad_name.mp4", S "bad_name.mp4", false, 0, .num 0⟩]
    ∧ (goSplit (S " - ") (S "bad_name.mp4")).length ≠ 2 := by
  exact ⟨rfl, by decide⟩

/-- C1 amended: the scanner accepts every error-free non-directory file whose
lower-cased extension is allow-listed, regardless of the filename pattern; the
library is exactly (a permutation of) those files' entries, name and path
taken from the file, state merged from the store. -/
theorem C1_amended (store : StoreFile) (walk : List WalkEntry)
    (m : List (Str × VideoFile)) (pre : List VideoFile)
    (hm : loadViewedVideos store = .ok m)
    (hw : walkFold m walk = .ok pre) :
    loadVideoFiles store walk = .ok (sortSlice vidLess pre)
    ∧ pre = (walk.filter (fun e => !e.err && !e.isDir && extOk e.path)).map
        (fun e => mkEntry m e.path)
    ∧ (sortSlice vidLess pre).Perm pre
    ∧ (∀ e ∈ walk, e.isDir = false → e.err = false → extOk e.path = true →
        ∃ v ∈ sortSlice vidLess pre, v.Name = goBase e.path ∧ v.Path = e.path)
    ∧ (∀ v ∈ sortSlice vidLess pre, extOk v.Path = true) := by
  have hchar := walkFold_ok_eq m walk pre hw
  have hperm := sortSlice_perm vidLess pre
  refine ⟨?_, hchar, hperm, ?_, ?_⟩
  · simp only [loadVideoFiles, scanFiles, hm, hw]
  · intro e he hdir herr hext
    have hmem : mkEntry m e.path ∈ pre := by
      rw [hchar]
      exact List.mem_map_of_mem _
        (List.mem_filter.2 ⟨he, by simp [herr, hdir, hext]⟩)
    exact ⟨mkEntry m e.path, hperm.mem_iff.2 hmem, rfl, rfl⟩
  · intro v hv
    have hvpre : v ∈ pre := hperm.mem_iff.1 hv
    rw [hchar] at hvpre
    obtain ⟨e, hef, hveq⟩ := List.mem_map.1 hvpre
    have hkeep := (List.mem_filter.1 hef).2
    simp only [Bool.and_eq_true] at hkeep
    rw [← hveq]
    exact hkeep.2

/-- C1 amended, witness at a concrete input: one well-named and one badly
named file, both accepted. -/
theorem C1_amended_witness :
    loadVideoFiles (.readFails .notExist)
        [wfile "1 - Intro.mp4", wfile "bad_name.mp4"]
      = .ok (sortSlice vidLess [vf13 "1 - Intro.mp4", vf13 "bad_name.mp4"])
    ∧ [vf13 "1 - Intro.mp4", vf13 "bad_name.mp4"]
      = (([wfile "1 - Intro.mp4", wfile "bad_name.mp4"]).filter
          (fun e => !e.err && !e.isDir && extOk e.path)).map
        (fun e => mkEntry [] e.path)
    ∧ (sortSlice vidLess [vf13 "1 - Intro.mp4", vf13 "bad_name.mp4"]).Perm
        [vf13 "1 - Intro.mp4", vf13 "bad_name.mp4"]
    ∧ (∀ e ∈ [wfile "1 - Intro.mp4", wfile "bad_name.mp4"],
        e.isDir = false → e.err = false → extOk e.path = true →
        ∃ v ∈ sortSlice vidLess [vf13 "1 - Intro.mp4", vf13 "bad_name.mp4"],
          v.Name = goBase e.path ∧ v.Path = e.path)
    ∧ (∀ v ∈ sortSlice vidLess [vf13 "1 - Intro.mp4", vf13 "bad_name.mp4"],
        extOk v.Path = true) :=
  C1_amended (.readFails .notExist) [wfile "1 - Intro.mp4", wfile "bad_name.mp4"]
    [] [vf13 "1 - Intro.mp4", vf13 "bad_name.mp4"] rfl rfl

/-- C3 counterexample: on a 13-file tree, the library comes back sorted but
the entries with equal keys are not in filesystem-walk order — Go's
`sort.Slice` (pdqsort) is not stable. -/
theorem C3_counterexample :
    scanFiles (.readFails .notExist) walk13 = .ok pre13
    ∧ loadVideoFiles (.readFails .notExist) walk13 = .ok out13
    ∧ out13.filter (fun v => decide (keyVid v = 0))
        ≠ pre13.filter (fun v => decide (keyVid v = 0)) := by
  exact ⟨rfl, rfl, by decide⟩

/-- C3 amended: for walks with at most 12 accepted files the library is sorted
non-decreasingly by the parsed leading key and ties keep walk order (the
filtered subsequence at every key value is unchanged); for larger walks
stability can fail. -/
theorem C3_amended (store : StoreFile) (walk : List WalkEntry)
    (pre out : List VideoFile) (c : Int)
    (h1 : scanFiles store walk = .ok pre)
    (h2 : loadVideoFiles store walk = .ok out)
    (hlen : pre.length ≤ 12) :
    out.Pairwise (fun u v => keyVid u ≤ keyVid v)
    ∧ out.filter (fun v => decide (keyVid v = c))
        = pre.filter (fun v => decide (keyVid v = c)) := by
  have hout : out = sortSlice vidLess pre := by
    simp only [loadVideoFiles, h1, Except.ok.injEq] at h2
    exact h2.symm
  rw [hout, vidLess_eq_klt, sortSlice_small keyVid pre hlen]
  have hs := sortF_sorted keyVid pre
  rw [SortedK] at hs
  exact ⟨hs, sortF_filter keyVid c pre⟩

/-- C3 amended, witness at a concrete 3-file input with a key tie. -/
theorem C3_amended_witness :
    (sortSlice vidLess [vf13 "2 - a.mp4", vf13 "1 - b.mp4", vf13 "1 - c.mp4"]).Pairwise
        (fun u v => keyVid u ≤ keyVid v)
    ∧ (sortSlice vidLess [vf13 "2 - a.mp4", vf13 "1 - b.mp4", vf13 "1 - c.mp4"]).filter
          (fun v => decide (keyVid v = 1))
      = [vf13 "2 - a.mp4", vf13 "1 - b.mp4", vf13 "1 - c.mp4"].filter
          (fun v => decide (keyVid v = 1)) := by
  have h := C3_amended (.readFails .notExist)
    [wfile "2 - a.mp4", wfile "1 - b.mp4", wfile "1 - c.mp4"]
    [vf13 "2 - a.mp4", vf13 "1 - b.mp4", vf13 "1 - c.mp4"]
    (sortSlice vidLess [vf13 "2 - a.mp4", vf13 "1 - b.mp4", vf13 "1 - c.mp4"])
    1 rfl rfl (by decide)
  exact h

/-- A save makes exactly the same number of write attempts whether the write
would succeed or fail — there is no retry logic anywhere. -/
theorem saveViewedVideos_attempts (vs : List VideoFile) (cur : StoreFile) :
    (saveViewedVideos vs cur false).writeAttempts
        = (saveViewedVideos vs cur true).writeAttempts
    ∧ (saveViewedVideos vs cur false).writeAttempts ≤ 1
    ∧ (saveViewedVideos vs cur true).writeAttempts ≤ 1
    ∧ ((saveViewedVideos vs cur false).writeAttempts = 1 →
        (saveViewedVideos vs cur false).errLogs
            = (saveViewedVideos vs cur true).errLogs + 1
        ∧ (saveViewedVideos vs cur false).store = cur) := by
  by_cases hm : marshalOk vs = true
  · simp [saveViewedVideos, hm]
  · simp [saveViewedVideos, hm]

/-- C2 counterexample: an unview request whose store write fails is logged
(one error line) and answered with the same see-other redirect as on success —
not an internal-server-error. -/
theorem C2_counterexample :
    step ⟨[vf13 "1 - a.mp4"], .holds (.videoList [vf13 "1 - a.mp4"])⟩
        (.unview (S "/unview/1 - a.mp4") .absent)
        ⟨0, false, [], [], []⟩
      = ⟨⟨[vf13 "1 - a.mp4"], .holds (.videoList [vf13 "1 - a.mp4"])⟩,
         .redirect303 .rootPath, 1, 1⟩
    ∧ (HttpResponse.redirect303 .rootPath) ≠ HttpResponse.internalError := by
  exact ⟨rfl, by decide⟩

/-- C2 amended: a failed store write is logged exactly once more than a
successful one, is never retried (at most one write attempt per request, and
the same number whether the write succeeds or not), leaves the store file as
it was, and the HTTP response is identical to the success-case response — in
particular no internal-server-error is reported for it. -/
theorem C2_amended (s : ServerState) (req : Request) (now : Int)
    (walk : List WalkEntry) (readme folder : Str) :
    (step s req ⟨now, false, walk, readme, folder⟩).response
        = (step s req ⟨now, true, walk, readme, folder⟩).response
    ∧ (step s req ⟨now, false, walk, readme, folder⟩).writeAttempts
        = (step s req ⟨now, true, walk, readme, folder⟩).writeAttempts
    ∧ (step s req ⟨now, false, walk, readme, folder⟩).writeAttempts ≤ 1
    ∧ ((step s req ⟨now, false, walk, readme, folder⟩).writeAttempts = 1 →
        (step s req ⟨now, false, walk, readme, folder⟩).errLogs
            = (step s req ⟨now, true, walk, readme, folder⟩).errLogs + 1
        ∧ (step s req ⟨now, false, walk, readme, folder⟩).state.store = s.store) := by
  cases req with
  | root p =>
    simp only [step, handleRoot]
    split <;> simp
  | video p =>
    simp only [step, handleVideo]
    split <;> simp
  | watch p e =>
    simp only [step, handleWatch, markVideoAsViewed]
    split
    · split
      · have h := saveViewedVideos_attempts
          ((updFirst (fun v => decide (v.Name = e))
            (fun v => ⟨v.Name, v.Path, true, now, .num 0⟩) s.videoFiles).get (by
              simp_all))
          s.store
        simp_all
      · simp
    · simp
  | unview p ref =>
    simp only [step, handleUnview]
    split
    · next vs' heq =>
      have h := saveViewedVideos_attempts vs' s.store
      simp_all
    · simp
  | updateProgress p =>
    simp only [step, handleUpdateProgress]
    split
    · simp
    · split
      · simp
      · split
        · next files' heq =>
          have h := saveViewedVideos_attempts files' s.store
          simp_all
        · simp

/-- C6: an unview request that names a library entry clears exactly that
entry's viewed flag (whatever it was), touches neither its progress nor any
other field, persists the list, and redirects (see-other) to the referer with
every `ended` query parameter removed — or to `"/"` when the referer is absent
or unparseable; a request naming no entry is answered not-found with no state
change. -/
theorem C6_unview (s : ServerState) (rawPath : Str) (ref : Referer) (env : Env) :
    (∀ vs', updFirst (fun v => decide (v.Name = trimPre (S "/unview/") rawPath))
          (fun v => ⟨v.Name, v.Path, false, v.Current, v.Progress⟩)
          s.videoFiles = some vs' →
      marshalOk vs' = true → env.writeOk = true →
      step s (.unview rawPath ref) env
          = ⟨⟨vs', .holds (.videoList vs')⟩, redirectAfterUnview ref, 0, 1⟩
      ∧ (∃ i x, s.videoFiles.get? i = some x
          ∧ x.Name = trimPre (S "/unview/") rawPath
          ∧ vs' = s.videoFiles.set i ⟨x.Name, x.Path, false, x.Current, x.Progress⟩)
      ∧ vs'.map (fun v => v.Progress) = s.videoFiles.map (fun v => v.Progress)
      ∧ (∀ u, ref = .parsed u → redirectAfterUnview ref
          = .redirect303 (.page ⟨u.base,
              u.query.filter (fun p => decide (p.1 ≠ S "ended"))⟩))
      ∧ (ref = .absent ∨ ref = .unparseable →
          redirectAfterUnview ref = .redirect303 .rootPath))
    ∧ (updFirst (fun v => decide (v.Name = trimPre (S "/unview/") rawPath))
          (fun v => ⟨v.Name, v.Path, false, v.Current, v.Progress⟩)
          s.videoFiles = none →
        step s (.unview rawPath ref) env = ⟨s, .notFound, 0, 0⟩
        ∧ ∀ x ∈ s.videoFiles, x.Name ≠ trimPre (S "/unview/") rawPath) := by
  constructor
  · intro vs' heq hm hw
    refine ⟨?_, ?_, ?_, ?_, ?_⟩
    · simp only [step, handleUnview, heq, saveViewedVideos, hm, hw]
      rfl
    · obtain ⟨i, x, hx, hp, hset⟩ := updFirst_some_set _ _ s.videoFiles vs' heq
      exact ⟨i, x, hx, by simpa using hp, hset⟩
    · exact updFirst_map (fun v => decide (v.Name = trimPre (S "/unview/") rawPath))
        (fun v => ⟨v.Name, v.Path, false, v.Current, v.Progress⟩)
        (fun v => v.Progress) (fun x _ => rfl) s.videoFiles vs' heq
    · intro u hu
      subst hu
      rfl
    · intro hu
      rcases hu with rfl | rfl <;> rfl
  · intro heq
    constructor
    · simp only [step, handleUnview, heq]
    · intro x hx
      have := (updFirst_none _ _ s.videoFiles).1 heq x hx
      simpa using this

/-- C6 witness: a viewed entry with progress `7/2` is unviewed, progress kept,
store rewritten, redirect to the referer with the `ended` parameter dropped. -/
theorem C6_unview_witness :
    step ⟨[⟨S "1 - a.mp4", S "r/1 - a.mp4", true, 5, .num (7/2)⟩],
          .holds (.videoList [⟨S "1 - a.mp4", S "r/1 - a.mp4", true, 5, .num (7/2)⟩])⟩
        (.unview (S "/unview/1 - a.mp4")
          (.parsed ⟨S "/watch/2 - b.mp4", [(S "ended", S "1 - a.mp4")]⟩))
        ⟨9, true, [], [], []⟩
      = ⟨⟨[⟨S "1 - a.mp4", S "r/1 - a.mp4", false, 5, .num (7/2)⟩],
          .holds (.videoList [⟨S "1 - a.mp4", S "r/1 - a.mp4", false, 5, .num (7/2)⟩])⟩,
         .redirect303 (.page ⟨S "/watch/2 - b.mp4", []⟩), 0, 1⟩ := by
  have h := (C6_unview
    ⟨[⟨S "1 - a.mp4", S "r/1 - a.mp4", true, 5, .num (7/2)⟩],
      .holds (.videoList [⟨S "1 - a.mp4", S "r/1 - a.mp4", true, 5, .num (7/2)⟩])⟩
    (S "/unview/1 - a.mp4")
    (.parsed ⟨S "/watch/2 - b.mp4", [(S "ended", S "1 - a.mp4")]⟩)
    ⟨9, true, [], [], []⟩).1
    [⟨S "1 - a.mp4", S "r/1 - a.mp4", false, 5, .num (7/2)⟩] rfl rfl rfl
  rw [h.1]
  rfl

/-- C5 counterexample: the `ended` value names an entry that is present, yet
because the watched path itself (`none.mp4`) resolves to no entry, the ended
video is not marked viewed and nothing is persisted — the watch view is
rendered over the unchanged list. -/
theorem C5_counterexample :
    step ⟨[vf13 "1 - a.mp4"], .holds (.videoList [vf13 "1 - a.mp4"])⟩
        (.watch (S "/watch/none.mp4") (S "1 - a.mp4"))
        ⟨9, true, [], [], []⟩
      = ⟨⟨[vf13 "1 - a.mp4"], .holds (.videoList [vf13 "1 - a.mp4"])⟩,
         .htmlPage ⟨[], [vf13 "1 - a.mp4"], S "none.mp4", none, []⟩, 0, 0⟩
    ∧ someNamed [vf13 "1 - a.mp4"] (S "1 - a.mp4") = true
    ∧ (vf13 "1 - a.mp4").Viewed = false := by
  exact ⟨rfl, by decide, rfl⟩

/-- C5 amended: when a watch request carries a non-empty `ended` value naming
a library entry *and the watched path itself resolves to a library entry*,
the ended entry transitions to viewed with `Current := now` and
`Progress := 0`, the mutated list is persisted, and the rendered view already
shows the mutated list (persist happens before the response). -/
theorem C5_amended (s : ServerState) (rawPath ended : Str) (env : Env)
    (cur : VideoFile) (vs' : List VideoFile)
    (hcur : s.videoFiles.find?
        (fun v => decide (v.Name = trimPre (S "/watch/") rawPath)) = some cur)
    (hend : ended ≠ [])
    (hupd : updFirst (fun v => decide (v.Name = ended))
        (fun v => ⟨v.Name, v.Path, true, env.now, .num 0⟩)
        s.videoFiles = some vs')
    (hm : marshalOk vs' = true) (hw : env.writeOk = true) :
    step s (.watch rawPath ended) env
        = ⟨⟨vs', .holds (.videoList vs')⟩,
           .htmlPage ⟨[], vs', trimPre (S "/watch/") rawPath, some cur,
             env.folderName⟩, 0, 1⟩
    ∧ ∃ i x, s.videoFiles.get? i = some x ∧ x.Name = ended
        ∧ vs' = s.videoFiles.set i ⟨x.Name, x.Path, true, env.now, .num 0⟩ := by
  constructor
  · simp only [step, handleWatch, markVideoAsViewed, hcur, hupd,
      saveViewedVideos, hm, hw]
    rw [if_pos ⟨hend, rfl⟩]
    simp
  · obtain ⟨i, x, hx, hp, hset⟩ := updFirst_some_set _ _ s.videoFiles vs' hupd
    exact ⟨i, x, hx, by simpa using hp, hset⟩

/-- C5 amended, witness: watching `2 - b.mp4` with `ended=1 - a.mp4` marks
`1 - a.mp4` viewed with progress 0 and persists before rendering. -/
theorem C5_amended_witness :
    step ⟨[⟨S "1 - a.mp4", S "1 - a.mp4", false, 0, .num (7/2)⟩, vf13 "2 - b.mp4"],
          .readFails .notExist⟩
        (.watch (S "/watch/2 - b.mp4") (S "1 - a.mp4")) ⟨9, true, [], [], []⟩
      = ⟨⟨[⟨S "1 - a.mp4", S "1 - a.mp4", true, 9, .num 0⟩, vf13 "2 - b.mp4"],
          .holds (.videoList [⟨S "1 - a.mp4", S "1 - a.mp4", true, 9, .num 0⟩,
            vf13 "2 - b.mp4"])⟩,
         .htmlPage ⟨[], [⟨S "1 - a.mp4", S "1 - a.mp4", true, 9, .num 0⟩,
            vf13 "2 - b.mp4"], S "2 - b.mp4", some (vf13 "2 - b.mp4"), []⟩, 0, 1⟩ := by
  have h := C5_amended
    ⟨[⟨S "1 - a.mp4", S "1 - a.mp4", false, 0, .num (7/2)⟩, vf13 "2 - b.mp4"],
      .readFails .notExist⟩
    (S "/watch/2 - b.mp4") (S "1 - a.mp4") ⟨9, true, [], [], []⟩
    (vf13 "2 - b.mp4")
    [⟨S "1 - a.mp4", S "1 - a.mp4", true, 9, .num 0⟩, vf13 "2 - b.mp4"]
    rfl (by decide) rfl rfl rfl
  exact h.1

/-- C4 counterexample: `/update-progress/1 - a.mp4/nan` parses successfully
(`ParseFloat("nan")` returns NaN with a nil error), the handler answers 200,
but nothing is persisted: `json.Marshal` rejects NaN, so the save is skipped
with only a log line — the parsed-value path does not imply persistence. -/
theorem C4_counterexample :
    step ⟨[], .holds (.videoList [⟨S "1 - a.mp4", S "1 - a.mp4", true, 5, .num 5⟩])⟩
        (.updateProgress (S "/update-progress/1 - a.mp4/nan"))
        ⟨9, true, [wfile "1 - a.mp4"], [], []⟩
      = ⟨⟨[], .holds (.videoList [⟨S "1 - a.mp4", S "1 - a.mp4", true, 5, .num 5⟩])⟩,
         .ok200, 1, 0⟩
    ∧ goParseFloat (S "nan") = some .nan := by
  exact ⟨rfl, rfl⟩

/-- C4 amended: a progress-update whose elapsed segment does not parse is
answered bad-request with no state and no store change; one that parses to a
finite value updates the named entry of the freshly loaded list —
`Current := now`, `Progress := value`, `Viewed` untouched — and persists it
(NaN/Inf values parse but fail JSON marshaling, so their save is skipped and
logged, as the counterexample shows). -/
theorem C4_amended (s : ServerState) (rawPath : Str) (env : Env) :
    (goParseFloat ((goSplit (S "/") rawPath).getLastD []) = none →
      step s (.updateProgress rawPath) env = ⟨s, .badRequest, 1, 0⟩)
    ∧ (∀ q files files',
        goParseFloat ((goSplit (S "/") rawPath).getLastD []) = some (.num q) →
        loadVideoFiles s.store env.walk = .ok files →
        updFirst (fun v => decide (v.Name
              = ((goSplit (S "/") rawPath).get?
                  ((goSplit (S "/") rawPath).length - 2)).getD []))
            (fun v => ⟨v.Name, v.Path, v.Viewed, env.now, .num q⟩)
            files = some files' →
        marshalOk files' = true → env.writeOk = true →
        step s (.updateProgress rawPath) env
            = ⟨⟨s.videoFiles, .holds (.videoList files')⟩, .ok200, 0, 1⟩
        ∧ ∃ i x, files.get? i = some x
            ∧ x.Name = ((goSplit (S "/") rawPath).get?
                ((goSplit (S "/") rawPath).length - 2)).getD []
            ∧ files' = files.set i ⟨x.Name, x.Path, x.Viewed, env.now, .num q⟩) := by
  constructor
  · intro hparse
    simp only [step, handleUpdateProgress, hparse]
  · intro q files files' hparse hload hupd hm hw
    constructor
    · simp only [step, handleUpdateProgress, hparse, hload, hupd,
        saveViewedVideos, hm, hw]
      simp
    · obtain ⟨i, x, hx, hp, hset⟩ := updFirst_some_set _ _ files files' hupd
      exact ⟨i, x, hx, by simpa using hp, hset⟩

/-- C4 amended, witness: a malformed value is rejected without change, and
`42.5` (exact value `425 * 10⁻¹`) updates progress and timestamp while
leaving the viewed flag alone, persisting the list. -/
theorem C4_amended_witness :
    (goParseFloat ((goSplit (S "/")
          (S "/update-progress/1 - a.mp4/notanumber")).getLastD []) = none
      ∧ step ⟨[], .holds (.videoList [⟨S "1 - a.mp4", S "1 - a.mp4", true, 5, .num 5⟩])⟩
          (.updateProgress (S "/update-progress/1 - a.mp4/notanumber"))
          ⟨9, true, [wfile "1 - a.mp4"], [], []⟩
        = ⟨⟨[], .holds (.videoList [⟨S "1 - a.mp4", S "1 - a.mp4", true, 5, .num 5⟩])⟩,
           .badRequest, 1, 0⟩)
    ∧ step ⟨[], .holds (.videoList [⟨S "1 - a.mp4", S "1 - a.mp4", true, 5, .num 5⟩])⟩
          (.updateProgress (S "/update-progress/1 - a.mp4/42.5"))
          ⟨9, true, [wfile "1 - a.mp4"], [], []⟩
        = ⟨⟨[], .holds (.videoList [⟨S "1 - a.mp4", S "1 - a.mp4", true, 9,
              .num (((425 : Nat) : ℚ) * (10 : ℚ) ^ (-((1 : Nat) : Int)))⟩])⟩,
           .ok200, 0, 1⟩ := by
  have hparse : goParseFloat ((goSplit (S "/")
        (S "/update-progress/1 - a.mp4/42.5")).getLastD [])
      = some (.num (((425 : Nat) : ℚ) * (10 : ℚ) ^ (-((1 : Nat) : Int)))) := by
    have h0 : goParseFloat ((goSplit (S "/")
          (S "/update-progress/1 - a.mp4/42.5")).getLastD [])
        = mkNum false (((425 : Nat) : ℚ) * (10 : ℚ) ^ (-((1 : Nat) : Int))) := rfl
    rw [h0, mkNum, if_neg (by norm_num [f64Max])]
    rfl
  refine ⟨⟨rfl, ?_⟩, ?_⟩
  · exact (C4_amended
      ⟨[], .holds (.videoList [⟨S "1 - a.mp4", S "1 - a.mp4", true, 5, .num 5⟩])⟩
      (S "/update-progress/1 - a.mp4/notanumber")
      ⟨9, true, [wfile "1 - a.mp4"], [], []⟩).1 rfl
  · exact ((C4_amended
      ⟨[], .holds (.videoList [⟨S "1 - a.mp4", S "1 - a.mp4", true, 5, .num 5⟩])⟩
      (S "/update-progress/1 - a.mp4/42.5")
      ⟨9, true, [wfile "1 - a.mp4"], [], []⟩).2
      (((425 : Nat) : ℚ) * (10 : ℚ) ^ (-((1 : Nat) : Int)))
      [⟨S "1 - a.mp4", S "1 - a.mp4", true, 5, .num 5⟩]
      [⟨S "1 - a.mp4", S "1 - a.mp4", true, 9,
        .num (((425 : Nat) : ℚ) * (10 : ℚ) ^ (-((1 : Nat) : Int)))⟩]
      hparse rfl rfl rfl rfl).1

/-- C2 amended, witness: a concrete failing unview write — one attempt, one
extra log line, unchanged store, identical response to the success case. -/
theorem C2_amended_witness :
    (step ⟨[vf13 "1 - a.mp4"], .holds (.videoList [vf13 "1 - a.mp4"])⟩
        (.unview (S "/unview/1 - a.mp4") .absent) ⟨0, false, [], [], []⟩).response
      = (step ⟨[vf13 "1 - a.mp4"], .holds (.videoList [vf13 "1 - a.mp4"])⟩
        (.unview (S "/unview/1 - a.mp4") .absent) ⟨0, true, [], [], []⟩).response
    ∧ (step ⟨[vf13 "1 - a.mp4"], .holds (.videoList [vf13 "1 - a.mp4"])⟩
        (.unview (S "/unview/1 - a.mp4") .absent) ⟨0, false, [], [], []⟩).writeAttempts = 1
    ∧ (step ⟨[vf13 "1 - a.mp4"], .holds (.videoList [vf13 "1 - a.mp4"])⟩
        (.unview (S "/unview/1 - a.mp4") .absent) ⟨0, false, [], [], []⟩).errLogs
      = (step ⟨[vf13 "1 - a.mp4"], .holds (.videoList [vf13 "1 - a.mp4"])⟩
        (.unview (S "/unview/1 - a.mp4") .absent) ⟨0, true, [], [], []⟩).errLogs + 1 := by
  have h := C2_amended ⟨[vf13 "1 - a.mp4"], .holds (.videoList [vf13 "1 - a.mp4"])⟩
    (.unview (S "/unview/1 - a.mp4") .absent) 0 [] [] []
  exact ⟨h.1, rfl, (h.2.2.2 rfl).1⟩

/-- Unfolding of `allViewedNamed` to membership form. -/
theorem allViewedNamed_iff (l : List VideoFile) (n : Str) :
    allViewedNamed l n = true ↔ ∀ v ∈ l, v.Name = n → v.Viewed = true := by
  rw [allViewedNamed, List.all_eq_true]
  constructor
  · intro h v hv hn
    have h2 := h v hv
    rw [if_pos hn] at h2
    exact h2
  · intro h v hv
    by_cases hn : v.Name = n
    · rw [if_pos hn]
      exact h v hv hn
    · rw [if_neg hn]

/-- Unfolding of `someNamed` to membership form. -/
theorem someNamed_iff (l : List VideoFile) (n : Str) :
    someNamed l n = true ↔ ∃ v ∈ l, v.Name = n := by
  rw [someNamed, List.any_eq_true]
  simp

/-- `allViewedNamed` transfers along permutations. -/
theorem allViewedNamed_of_perm {l l' : List VideoFile} (h : l.Perm l') (n : Str)
    (ha : allViewedNamed l n = true) : allViewedNamed l' n = true := by
  rw [allViewedNamed_iff] at ha ⊢
  intro v hv hn
  exact ha v (h.mem_iff.2 hv) hn

/-- `someNamed` transfers along permutations. -/
theorem someNamed_of_perm {l l' : List VideoFile} (h : l.Perm l') (n : Str)
    (hs : someNamed l n = true) : someNamed l' n = true := by
  rw [someNamed_iff] at hs ⊢
  obtain ⟨v, hv, hn⟩ := hs
  exact ⟨v, h.mem_iff.1 hv, hn⟩

/-- `someNamed` only depends on the name projection. -/
theorem someNamed_eq_names (l : List VideoFile) (n : Str) :
    someNamed l n = (l.map (fun v => v.Name)).any (fun m => decide (m = n)) := by
  induction l with
  | nil => rfl
  | cons v t ih =>
    simp only [someNamed, List.map_cons, List.any_cons]
    rw [someNamed] at ih
    rw [ih]

/-- If names agree, `someNamed` agrees. -/
theorem someNamed_eq_of_names {l l' : List VideoFile} (n : Str)
    (h : l.map (fun v => v.Name) = l'.map (fun v => v.Name)) :
    someNamed l n = someNamed l' n := by
  rw [someNamed_eq_names, someNamed_eq_names, h]

/-- Saving preserves the well-formed-store half of the viewed invariant when
the saved list satisfies it. -/
theorem save_viewedInv (vs' : List VideoFile) (st : StoreFile) (wOk : Bool)
    (n : Str) (hall : allViewedNamed vs' n = true) (hsome : someNamed vs' n = true)
    (hst : ∃ ls, st = .holds (.videoList ls) ∧ allViewedNamed ls n = true
      ∧ someNamed ls n = true) :
    ∃ ls, (saveViewedVideos vs' st wOk).store = .holds (.videoList ls)
      ∧ allViewedNamed ls n = true ∧ someNamed ls n = true := by
  by_cases hm : marshalOk vs' = true
  · cases wOk with
    | true => exact ⟨vs', by simp [saveViewedVideos, hm], hall, hsome⟩
    | false =>
      obtain ⟨ls, h1, h2, h3⟩ := hst
      exact ⟨ls, by simp [saveViewedVideos, hm, h1], h2, h3⟩
  · obtain ⟨ls, h1, h2, h3⟩ := hst
    exact ⟨ls, by simp [saveViewedVideos, hm, h1], h2, h3⟩

/-- A fresh library load from a well-formed store in which the video named `n`
is viewed again shows `n` viewed, provided `n`'s file is in the walk. -/
theorem loadVideoFiles_viewed (ls : List VideoFile) (walk : List WalkEntry)
    (files : List VideoFile) (n : Str)
    (hload : loadVideoFiles (.holds (.videoList ls)) walk = .ok files)
    (hall : allViewedNamed ls n = true) (hsome : someNamed ls n = true)
    (hacc : acceptedName walk n = true) :
    allViewedNamed files n = true ∧ someNamed files n = true := by
  have hscan : scanFiles (.holds (.videoList ls)) walk
      = walkFold (mapOf ls) walk := rfl
  cases hw : walkFold (mapOf ls) walk with
  | error u =>
    rw [loadVideoFiles, hscan, hw] at hload
    cases hload
  | ok pre =>
    rw [loadVideoFiles, hscan, hw] at hload
    cases hload
    have hchar := walkFold_ok_eq (mapOf ls) walk pre hw
    have hperm := sortSlice_perm vidLess pre
    have hallpre : allViewedNamed pre n = true := by
      rw [allViewedNamed_iff]
      intro v hv hn
      rw [hchar] at hv
      obtain ⟨e, _, hveq⟩ := List.mem_map.1 hv
      rw [← hveq] at hn ⊢
      show (mapGet (mapOf ls) (goBase e.path)).Viewed = true
      have hbn : goBase e.path = n := hn
      rw [hbn]
      exact (mapGet_mapOf_viewed ls n hall hsome).1
    have hsomepre : someNamed pre n = true := by
      rw [someNamed_iff]
      rw [acceptedName, List.any_eq_true] at hacc
      obtain ⟨e, he, hp⟩ := hacc
      simp only [Bool.and_eq_true, Bool.not_eq_true', decide_eq_true_eq] at hp
      refine ⟨mkEntry (mapOf ls) e.path, ?_, hp.2⟩
      rw [hchar]
      exact List.mem_map_of_mem _
        (List.mem_filter.2 ⟨he, by simp [hp.1.1.1, hp.1.1.2, hp.1.2]⟩)
    exact ⟨allViewedNamed_of_perm hperm.symm n hallpre,
      someNamed_of_perm hperm.symm n hsomepre⟩

/-- One request that is not an unview of `n`, issued while `n`'s file is still
in the walk, preserves the invariant that the video named `n` is viewed in
memory and in the store. -/
theorem step_viewed_preserve (s : ServerState) (n : Str) (req : Request)
    (env : Env) (hinv : viewedInv s n) (hreq : unviewNames req n = false)
    (hacc : acceptedName env.walk n = true) :
    viewedInv (step s req env).state n := by
  obtain ⟨hmemAll, hmemSome, hstore⟩ := hinv
  cases req with
  | root p =>
    simp only [step, handleRoot]
    split
    · exact ⟨hmemAll, hmemSome, hstore⟩
    · exact ⟨hmemAll, hmemSome, hstore⟩
  | video p =>
    simp only [step, handleVideo]
    split
    · exact ⟨hmemAll, hmemSome, hstore⟩
    · exact ⟨hmemAll, hmemSome, hstore⟩
  | watch p e =>
    simp only [step, handleWatch, markVideoAsViewed]
    split
    · split
      · next vs' heq =>
        have hnames := updFirst_map (fun v => decide (v.Name = e))
          (fun v => ⟨v.Name, v.Path, true, env.now, .num 0⟩)
          (fun v => v.Name) (fun x _ => rfl) s.videoFiles vs' heq
        have hall' : allViewedNamed vs' n = true := by
          rw [allViewedNamed_iff]
          intro y hy hn
          rcases updFirst_mem _ _ s.videoFiles vs' heq y hy with
            hmem | ⟨x, _, _, hyx⟩
          · exact (allViewedNamed_iff _ _).1 hmemAll y hmem hn
          · rw [hyx]
        have hsome' : someNamed vs' n = true := by
          rw [someNamed_eq_of_names n hnames]
          exact hmemSome
        exact ⟨hall', hsome',
          save_viewedInv vs' s.store env.writeOk n hall' hsome' hstore⟩
      · exact ⟨hmemAll, hmemSome, hstore⟩
    · exact ⟨hmemAll, hmemSome, hstore⟩
  | unview p ref =>
    have hfn : trimPre (S "/unview/") p ≠ n := by
      simpa [unviewNames] using hreq
    simp only [step, handleUnview]
    split
    · next vs' heq =>
      have hnames := updFirst_map
        (fun v => decide (v.Name = trimPre (S "/unview/") p))
        (fun v => ⟨v.Name, v.Path, false, v.Current, v.Progress⟩)
        (fun v => v.Name) (fun x _ => rfl) s.videoFiles vs' heq
      have hall' : allViewedNamed vs' n = true := by
        rw [allViewedNamed_iff]
        intro y hy hn
        rcases updFirst_mem _ _ s.videoFiles vs' heq y hy with
          hmem | ⟨x, _, hpx, hyx⟩
        · exact (allViewedNamed_iff _ _).1 hmemAll y hmem hn
        · exfalso
          apply hfn
          have hxn : x.Name = trimPre (S "/unview/") p := by simpa using hpx
          rw [← hxn]
          rw [hyx] at hn
          exact hn
      have hsome' : someNamed vs' n = true := by
        rw [someNamed_eq_of_names n hnames]
        exact hmemSome
      exact ⟨hall', hsome',
        save_viewedInv vs' s.store env.writeOk n hall' hsome' hstore⟩
    · exact ⟨hmemAll, hmemSome, hstore⟩
  | updateProgress p =>
    simp only [step, handleUpdateProgress]
    split
    · exact ⟨hmemAll, hmemSome, hstore⟩
    · next prog hparse =>
      split
      · exact ⟨hmemAll, hmemSome, hstore⟩
      · next files hload =>
          obtain ⟨ls, hst, hlsall, hlssome⟩ := hstore
          rw [hst] at hload
          have hfl := loadVideoFiles_viewed ls env.walk files n hload hlsall
            hlssome hacc
          split
          · next files' heq =>
            have hnames := updFirst_map
              (fun v => decide (v.Name
                = ((goSplit (S "/") p).get? ((goSplit (S "/") p).length - 2)).getD []))
              (fun v => ⟨v.Name, v.Path, v.Viewed, env.now, prog⟩)
              (fun v => v.Name) (fun x _ => rfl) files files' heq
            have hall' : allViewedNamed files' n = true := by
              rw [allViewedNamed_iff]
              intro y hy hn
              rcases updFirst_mem _ _ files files' heq y hy with
                hmem | ⟨x, hx, _, hyx⟩
              · exact (allViewedNamed_iff _ _).1 hfl.1 y hmem hn
              · rw [hyx] at hn ⊢
                exact (allViewedNamed_iff _ _).1 hfl.1 x hx hn
            have hsome' : someNamed files' n = true := by
              rw [someNamed_eq_of_names n hnames]
              exact hfl.2
            exact ⟨hmemAll, hmemSome,
              save_viewedInv files' s.store env.writeOk n hall' hsome'
                ⟨ls, hst, hlsall, hlssome⟩⟩
          · exact ⟨hmemAll, hmemSome, ⟨ls, hst, hlsall, hlssome⟩⟩

/-- C9: over every finite request sequence containing no unview of `n` and
issued while `n`'s file remains in the tree, a video named `n` that is viewed
(in memory and in the store) stays viewed — in particular progress updates on
an already-viewed video never clear the flag, and the only transition out of
viewed is an explicit unview naming it. -/
theorem C9_viewed_monotone (s : ServerState) (n : Str)
    (reqs : List (Request × Env)) (hinv : viewedInv s n)
    (hreqs : ∀ re ∈ reqs, unviewNames re.1 n = false
      ∧ acceptedName re.2.walk n = true) :
    viewedInv (run s reqs) n := by
  induction reqs generalizing s with
  | nil => exact hinv
  | cons re rest ih =>
    rw [run]
    have h1 := hreqs re (by simp)
    exact ih (step s re.1 re.2).state
      (step_viewed_preserve s n re.1 re.2 hinv h1.1 h1.2)
      (fun r hr => hreqs r (List.mem_cons_of_mem re hr))

/-- C9 witness: a progress tick on an already-viewed video leaves it viewed in
memory and in the store. -/
theorem C9_viewed_monotone_witness :
    viewedInv (run ⟨[⟨S "1 - a.mp4", S "1 - a.mp4", true, 5, .num 0⟩],
        .holds (.videoList [⟨S "1 - a.mp4", S "1 - a.mp4", true, 5, .num 0⟩])⟩
      [(.updateProgress (S "/update-progress/1 - a.mp4/7"),
        ⟨9, true, [wfile "1 - a.mp4"], [], []⟩)])
      (S "1 - a.mp4") :=
  C9_viewed_monotone _ _ _
    ⟨by decide, by decide,
      ⟨[⟨S "1 - a.mp4", S "1 - a.mp4", true, 5, .num 0⟩], rfl, by decide, by decide⟩⟩
    (by decide)

/-- C8: saving an entry list with pairwise-distinct names and re-scanning the
same root reproduces, for each saved entry whose file is still walked, an
entry with identical `Viewed`, `Current` and `Progress`; and every reloaded
entry takes its name and path from the scanned file, with only the three state
fields merged from the store. -/
theorem C8_round_trip (L : List VideoFile) (st : StoreFile)
    (walk : List WalkEntry) (out : List VideoFile)
    (hnd : (L.map (fun v => v.Name)).Nodup)
    (hm : marshalOk L = true)
    (hload : loadVideoFiles (saveViewedVideos L st true).store walk = .ok out) :
    (saveViewedVideos L st true).store = .holds (.videoList L)
    ∧ (∀ v ∈ L, ∀ e ∈ walk, e.err = false → e.isDir = false →
        extOk e.path = true → goBase e.path = v.Name →
        ∃ w ∈ out, w.Name = v.Name ∧ w.Path = e.path ∧ w.Viewed = v.Viewed
          ∧ w.Current = v.Current ∧ w.Progress = v.Progress)
    ∧ (∀ w ∈ out, ∃ e ∈ walk, e.isDir = false ∧ extOk e.path = true
        ∧ w = mkEntry (mapOf L) e.path) := by
  have hsave : (saveViewedVideos L st true).store = .holds (.videoList L) := by
    simp [saveViewedVideos, hm]
  rw [hsave] at hload
  have hscan : scanFiles (.holds (.videoList L)) walk
      = walkFold (mapOf L) walk := rfl
  cases hw : walkFold (mapOf L) walk with
  | error u =>
    rw [loadVideoFiles, hscan, hw] at hload
    cases hload
  | ok pre =>
    rw [loadVideoFiles, hscan, hw] at hload
    cases hload
    have hchar := walkFold_ok_eq (mapOf L) walk pre hw
    have hperm := sortSlice_perm vidLess pre
    refine ⟨hsave, ?_, ?_⟩
    · intro v hv e he herr hdir hext hbase
      have hmem : mkEntry (mapOf L) e.path ∈ pre := by
        rw [hchar]
        exact List.mem_map_of_mem _
          (List.mem_filter.2 ⟨he, by simp [herr, hdir, hext]⟩)
      refine ⟨mkEntry (mapOf L) e.path, hperm.mem_iff.2 hmem, hbase, rfl, ?_, ?_, ?_⟩
      · show (mapGet (mapOf L) (goBase e.path)).Viewed = v.Viewed
        rw [hbase, mapGet_mapOf_nodup L hnd v hv]
      · show (mapGet (mapOf L) (goBase e.path)).Current = v.Current
        rw [hbase, mapGet_mapOf_nodup L hnd v hv]
      · show (mapGet (mapOf L) (goBase e.path)).Progress = v.Progress
        rw [hbase, mapGet_mapOf_nodup L hnd v hv]
    · intro w hw2
      have hwpre : w ∈ pre := hperm.mem_iff.1 hw2
      rw [hchar] at hwpre
      obtain ⟨e, hef, hveq⟩ := List.mem_map.1 hwpre
      have hkeep := (List.mem_filter.1 hef).2
      simp only [Bool.and_eq_true, Bool.not_eq_true'] at hkeep
      exact ⟨e, (List.mem_filter.1 hef).1, hkeep.1.2, hkeep.2, hveq.symm⟩

/-- C8 witness: one viewed entry with progress 0 round-trips through the store
file and a re-scan of its file. -/
theorem C8_round_trip_witness :
    (saveViewedVideos [⟨S "1 - a.mp4", S "1 - a.mp4", true, 5, .num 0⟩]
        (.readFails .notExist) true).store
      = .holds (.videoList [⟨S "1 - a.mp4", S "1 - a.mp4", true, 5, .num 0⟩])
    ∧ (∀ v ∈ [⟨S "1 - a.mp4", S "1 - a.mp4", true, 5, .num 0⟩],
        ∀ e ∈ [wfile "1 - a.mp4"], e.err = false → e.isDir = false →
        extOk e.path = true → goBase e.path = VideoFile.Name v →
        ∃ w ∈ [⟨S "1 - a.mp4", S "1 - a.mp4", true, 5, .num 0⟩],
          VideoFile.Name w = VideoFile.Name v ∧ w.Path = e.path
          ∧ w.Viewed = v.Viewed ∧ w.Current = v.Current
          ∧ w.Progress = v.Progress)
    ∧ (∀ w ∈ [⟨S "1 - a.mp4", S "1 - a.mp4", true, 5, .num 0⟩],
        ∃ e ∈ [wfile "1 - a.mp4"], e.isDir = false ∧ extOk e.path = true
        ∧ w = mkEntry (mapOf [⟨S "1 - a.mp4", S "1 - a.mp4", true, 5, .num 0⟩])
            e.path) :=
  C8_round_trip [⟨S "1 - a.mp4", S "1 - a.mp4", true, 5, .num 0⟩]
    (.readFails .notExist) [wfile "1 - a.mp4"]
    [⟨S "1 - a.mp4", S "1 - a.mp4", true, 5, .num 0⟩]
    (by decide) rfl rfl
